import Mathlib

/-!
Verification development for the Tiny Search Engine (TSE) index and querier.

The C sources embedded here are `index.c` (the InvertedIndex module: insert,
set, find, save, load) and `querier.c` (tokenization, character and syntax
validation, AND/OR query evaluation over counters, result ranking).

The libcs50 `counters_t` container is not part of the repository sources
(only the prebuilt library is shipped), so the DocCounts operations are
modelled from the spec, section 4.1: a sparse map from document identifier
to count, with `get` returning 0 for an absent key, `set` overwriting or
creating an entry, and `increment` adding 1 (creating the entry with 1).
We realize it as an association list with at most one entry per key;
iteration order is list order (one admissible order, since the spec leaves
iteration order unspecified).

Query strings are modelled as the list of characters before the NUL
terminator.  C `int` values (document identifiers and counts) are modelled
as unbounded `Int`; no code path relies on wrap-around.
-/

namespace TSE

/-- Character class of C `isspace` in the C locale (space, tab, newline,
vertical tab, form feed, carriage return). -/
def isSpaceC (c : Char) : Bool :=
  c = ' ' || c = '\t' || c = '\n' || c = '\x0b' || c = '\x0c' || c = '\x0d'

/-- Character class of C `isalpha` in the C locale. -/
def isAlphaC (c : Char) : Bool :=
  ('A' ≤ c && c ≤ 'Z') || ('a' ≤ c && c ≤ 'z')

/-- Decimal digit test, as used by `fscanf` with the `%d` conversion. -/
def isDigitC (c : Char) : Bool :=
  '0' ≤ c && c ≤ '9'

/-- Behaviour of C `tolower` in the C locale on the characters the querier
feeds it (bytes; uppercase letters map 32 codepoints down). -/
def toLowerC (c : Char) : Char :=
  if 'A' ≤ c && c ≤ 'Z' then Char.ofNat (c.toNat + 32) else c

/-- Modelled from the spec: the libcs50 `counters_t` (DocCounts), a sparse
mapping from document identifier to occurrence count, here an association
list with at most one entry per key.  The counters source file is not in
the repository; spec section 4.1 fixes the operations' semantics. -/
abbrev counters_t := List (Int × Int)

/-- Modelled from the spec: `get(docID)` returns the count, or 0 if the
document is absent. -/
def counters_get : counters_t → Int → Int
  | [], _ => 0
  | (k, v) :: rest, key => if k = key then v else counters_get rest key

/-- Modelled from the spec: `set(docID, count)` overwrites (or creates) an
entry with an explicit value.  A created entry goes at the end of the
iteration order. -/
def counters_set : counters_t → Int → Int → counters_t
  | [], key, cnt => [(key, cnt)]
  | (k, v) :: rest, key, cnt =>
      if k = key then (k, cnt) :: rest else (k, v) :: counters_set rest key cnt

/-- Modelled from the spec: `increment(docID)` sets the count to 1 if the
document is absent, else adds 1 (libcs50 `counters_add`). -/
def counters_add : counters_t → Int → counters_t
  | [], key => [(key, 1)]
  | (k, v) :: rest, key =>
      if k = key then (k, v + 1) :: rest else (k, v) :: counters_add rest key

/-- Keys of a counters object, in iteration order. -/
def ckeys (c : counters_t) : List Int := c.map Prod.fst

/-- Reading through a nullable counters pointer: C code that calls
`counters_get` on a possibly-NULL result observes 0 for NULL. -/
def counters_getOpt (c : Option counters_t) (key : Int) : Int :=
  match c with
  | none => 0
  | some c => counters_get c key

/-- Embedding of `index_t` from index.c: a mapping from word to its owned
counters.  The underlying `hashtable_t` is modelled as an association list
with at most one entry per word; hashtable iteration order (unspecified
bucket order in C) is modelled as list order. -/
abbrev index_t := List (String × counters_t)

/-- Embedding of `index_find` (index.c): returns the word's counters, or
none (NULL) if the word was never indexed. -/
def index_find : index_t → String → Option counters_t
  | [], _ => none
  | (w, c) :: rest, word => if w = word then some c else index_find rest word

/-- Replaces the counters stored under an existing word (the in-place
mutation of the counters object found by `hashtable_find`). -/
def index_update : index_t → String → (counters_t → counters_t) → index_t
  | [], _, _ => []
  | (w, c) :: rest, word, f =>
      if w = word then (w, f c) :: rest else (w, c) :: index_update rest word f

/-- Embedding of `index_insert` (index.c): rejects a negative docID, then
increments the word's counter for docID, creating the word entry (at the
end of iteration order) and its counters if needed. -/
def index_insert (idx : index_t) (word : String) (docID : Int) : index_t :=
  if docID < 0 then idx
  else
    match index_find idx word with
    | some _ => index_update idx word (fun c => counters_add c docID)
    | none => idx ++ [(word, counters_add [] docID)]

/-- Embedding of `index_set` (index.c): rejects a negative docID or count,
then overwrites the word's counter for docID with the explicit count,
creating the word entry and its counters if needed. -/
def index_set (idx : index_t) (word : String) (docID count : Int) : index_t :=
  if docID < 0 || count < 0 then idx
  else
    match index_find idx word with
    | some _ => index_update idx word (fun c => counters_set c docID count)
    | none => idx ++ [(word, counters_set [] docID count)]

/-! ### Persistence: index_save and index_load (index.c) -/

/-- Decimal digit character (used to render `%d` output of `fprintf`). -/
def digitChar (n : Nat) : Char :=
  match n with
  | 0 => '0' | 1 => '1' | 2 => '2' | 3 => '3' | 4 => '4'
  | 5 => '5' | 6 => '6' | 7 => '7' | 8 => '8' | _ => '9'

/-- Fuelled digit expansion; the fuel (first argument) only bounds the
number of digits produced and `n + 1` always suffices. -/
def natToCharsAux : Nat → Nat → List Char → List Char
  | 0, _, acc => acc
  | fuel + 1, n, acc =>
      if n < 10 then digitChar (n % 10) :: acc
      else natToCharsAux fuel (n / 10) (digitChar (n % 10) :: acc)

/-- Decimal rendering of a natural number, most significant digit first. -/
def natToChars (n : Nat) : List Char := natToCharsAux (n + 1) n []

/-- Rendering of a C `int` by `fprintf` with `%d`. -/
def renderInt (i : Int) : List Char :=
  if i < 0 then '-' :: natToChars (-i).toNat else natToChars i.toNat

/-- Embedding of `save_index_counts` iterated over one counters object
(index.c): appends one " docID count" fragment per entry, in iteration
order. -/
def saveCounts (c : counters_t) : List Char :=
  match c with
  | [] => []
  | (d, n) :: rest => ' ' :: (renderInt d ++ ' ' :: (renderInt n ++ saveCounts rest))

/-- Embedding of `save_index_word` (index.c): the word, its counter pairs,
and a newline. -/
def saveLine (w : String) (c : counters_t) : List Char :=
  w.toList ++ saveCounts c ++ ['\n']

/-- Embedding of `index_save` (index.c): one line per word, in hashtable
iteration order (modelled as list order). -/
def index_save : index_t → List Char
  | [] => []
  | (w, c) :: rest => saveLine w c ++ index_save rest

/-- Leading-whitespace skipping performed by `fscanf` before every `%s` and
`%d` conversion. -/
def dropWs : List Char → List Char
  | [] => []
  | c :: rest => if isSpaceC c then dropWs rest else c :: rest

/-- Maximal run of non-whitespace characters at the head of the stream
(the characters a `%s` conversion consumes). -/
def takeTok : List Char → List Char × List Char
  | [] => ([], [])
  | c :: rest =>
      if isSpaceC c then ([], c :: rest)
      else
        let p := takeTok rest
        (c :: p.1, p.2)

/-- Maximal run of decimal digits at the head of the stream (the digits a
`%d` conversion consumes). -/
def takeDigits : List Char → List Char × List Char
  | [] => ([], [])
  | c :: rest =>
      if isDigitC c then
        let p := takeDigits rest
        (c :: p.1, p.2)
      else ([], c :: rest)

/-- Value of a digit character. -/
def digitVal (c : Char) : Nat := c.toNat - 48

/-- Value of a digit string, most significant digit first. -/
def digitsVal (ds : List Char) : Nat :=
  ds.foldl (fun a c => 10 * a + digitVal c) 0

/-- Model of one `fscanf` `%d` conversion: skip whitespace, consume an
optional sign and a maximal digit run; on matching failure (no digits) the
offending character is pushed back but a consumed sign is not (stdio can
push back only one character), exactly as glibc behaves. -/
def scanInt (s : List Char) : Option Int × List Char :=
  match dropWs s with
  | [] => (none, [])
  | ch :: r =>
      if ch = '-' then
        match takeDigits r with
        | ([], _) => (none, r)
        | (ds, r2) => (some (-(digitsVal ds : Int)), r2)
      else if ch = '+' then
        match takeDigits r with
        | ([], _) => (none, r)
        | (ds, r2) => (some (digitsVal ds : Int), r2)
      else
        match takeDigits (ch :: r) with
        | ([], _) => (none, ch :: r)
        | (ds, r2) => (some (digitsVal ds : Int), r2)

/-- Model of one `fscanf` `%s` conversion: skip whitespace and consume a
maximal non-whitespace token; fails (returns EOF in C) when only
whitespace remains. -/
def scanString (s : List Char) : Option (List Char × List Char) :=
  match takeTok (dropWs s) with
  | ([], _) => none
  | (t, r) => some (t, r)

/-- Embedding of the inner `index_load` loop (index.c): repeatedly
`fscanf(fp, "%d %d", &docID, &count)`, installing each complete pair via
`index_set`, stopping at the first conversion failure.  The fuel only
bounds the number of iterations; every successful pair consumes at least
two characters, so `s.length + 1` always suffices. -/
def pairsLoop : Nat → index_t → String → List Char → index_t × List Char
  | 0, idx, _, s => (idx, s)
  | fuel + 1, idx, word, s =>
      match scanInt s with
      | (none, s1) => (idx, s1)
      | (some d, s1) =>
          match scanInt s1 with
          | (none, s2) => (idx, s2)
          | (some cnt, s2) => pairsLoop fuel (index_set idx word d cnt) word s2

/-- Embedding of the outer `index_load` loop (index.c): repeatedly
`fscanf(fp, "%s", word)` and then the pairs loop.  The fuel only bounds
the number of iterations; every word consumes at least one character, so
`s.length + 1` always suffices. -/
def loadLoop : Nat → index_t → List Char → index_t
  | 0, idx, _ => idx
  | fuel + 1, idx, s =>
      match scanString s with
      | none => idx
      | some (w, s1) =>
          match pairsLoop (s1.length + 1) idx (String.mk w) s1 with
          | (idx2, s2) => loadLoop fuel idx2 s2

/-- Embedding of `index_load` (index.c): starts from a fresh empty index
(the `file_numLines` call only sizes the hashtable and has no observable
effect here) and runs the scanning loops over the whole file contents.
There is no error path: the C function returns the populated index
whatever the input looks like. -/
def index_load (s : List Char) : index_t := loadLoop (s.length + 1) [] s

/-! ### Querier: counters combinators and query evaluation (querier.c) -/

/-- Embedding of `counters_iterate(src, dst, callbackAddCounts)` onto a
destination counters object (querier.c): for every entry `(k, c)` of the
source, in iteration order, `counters_set(dst, k, counters_get(dst, k) + c)`. -/
def addAllCounts (dst : counters_t) (src : counters_t) : counters_t :=
  src.foldl (fun res p => counters_set res p.1 (counters_get res p.1 + p.2)) dst

/-- Embedding of `unionCounters` (querier.c): merges `andResult` into
`result` by adding counts; both pointers are non-NULL at every call site,
so the NULL guard is invisible here. -/
def unionCounters (result : counters_t) (andResult : counters_t) : counters_t :=
  addAllCounts result andResult

/-- Embedding of the `counters_new` + `callbackAddCounts` copy performed
when `queryEvaluate` seeds a fresh AND sequence from a word's counters
(querier.c line 409-411). -/
def copyCounters (src : counters_t) : counters_t :=
  addAllCounts [] src

/-- Embedding of `intersectCounters` (querier.c): iterates over `acc`,
setting each visited key to the minimum of its count and the key's count
in `wordCounters`.  Only already-present keys are visited and updated, so
the in-place iteration is the map below. -/
def intersectCounters (acc : counters_t) (wordCounters : counters_t) : counters_t :=
  acc.map (fun p => (p.1, if p.2 < counters_get wordCounters p.1 then p.2 else counters_get wordCounters p.1))

/-- Embedding of `matchMerge` (querier.c): folds a pending AND sequence
into the OR sequence (allocating the OR sequence if NULL) and discards the
AND sequence; a NULL AND sequence leaves the OR sequence untouched. -/
def matchMerge (andSequence orSequence : Option counters_t) : Option counters_t :=
  match andSequence with
  | none => orSequence
  | some a => some (unionCounters (orSequence.getD []) a)

/-- Evaluation state of the `queryEvaluate` loop (querier.c): the running
AND sequence, the accumulated OR sequence (both NULL-able), and the
`andSequenceInvalid` flag. -/
structure EvalState where
  andSeq : Option counters_t
  orSeq : Option counters_t
  invalid : Bool
deriving Repr, DecidableEq

/-- Embedding of one iteration of the `queryEvaluate` token loop
(querier.c lines 379-417), in source order: the `or` test first, then the
invalid-chain skip, then the `and` skip, then the index lookup. -/
def evalStep (idx : index_t) (st : EvalState) (w : String) : EvalState :=
  if w = "or" then
    { andSeq := none, orSeq := matchMerge st.andSeq st.orSeq, invalid := false }
  else if st.invalid then st
  else if w = "and" then st
  else
    match index_find idx w with
    | none => { st with andSeq := none, invalid := true }
    | some wordMatch =>
        match st.andSeq with
        | none => { st with andSeq := some (copyCounters wordMatch) }
        | some a => { st with andSeq := some (intersectCounters a wordMatch) }

/-- Embedding of `queryEvaluate` (querier.c): runs the token loop and then
the final `matchMerge`, returning the OR sequence — which is NULL (`none`)
when no AND chain was ever folded in. -/
def queryEvaluate (words : List String) (idx : index_t) : Option counters_t :=
  let st := words.foldl (evalStep idx) ⟨none, none, false⟩
  matchMerge st.andSeq st.orSeq

/-! ### Querier: tokenization and validation (querier.c) -/

/-- Embedding of `isValidCharacters` (querier.c): every character must be
alphabetic or whitespace. -/
def isValidCharacters (query : List Char) : Bool :=
  query.all (fun c => isAlphaC c || isSpaceC c)

/-- Embedding of the `queryTokenize` loop (querier.c): skip whitespace,
scan a maximal non-whitespace token (lowercasing it, as the in-place
`tolower` writes do), store it if fewer than `maxWords` tokens are stored
so far, else break.  The fuel only bounds the number of iterations; every
token consumes at least one character, so `s.length + 1` always
suffices. -/
def queryTokenizeAux : Nat → Nat → List Char → List (List Char)
  | 0, _, _ => []
  | fuel + 1, cap, s =>
      match takeTok (dropWs s) with
      | ([], _) => []
      | (t, r) =>
          if cap = 0 then []
          else t.map toLowerC :: queryTokenizeAux fuel (cap - 1) r

/-- Embedding of `queryTokenize` (querier.c), returning the stored words
(the C function additionally returns their number, the list length). -/
def queryTokenize (query : List Char) (maxWords : Nat) : List String :=
  (queryTokenizeAux (query.length + 1) maxWords query).map (fun t => String.mk t)

/-- Specification-side notion used by the capacity claim: the maximal
whitespace-separated tokens of a line, with no cap and no lowercasing. -/
def splitWsAux : Nat → List Char → List (List Char)
  | 0, _ => []
  | fuel + 1, s =>
      match takeTok (dropWs s) with
      | ([], _) => []
      | (t, r) => t :: splitWsAux fuel r

/-- Specification-side token split: every maximal whitespace-separated
token of the line, in order. -/
def splitWs (s : List Char) : List (List Char) := splitWsAux (s.length + 1) s

/-- Operator test used throughout `isValidQuerySyntax` and
`queryEvaluate`. -/
def isOp (w : String) : Bool := w = "and" || w = "or"

/-- Embedding of the consecutive-operator scan of `isValidQuerySyntax`
(querier.c lines 548-554): no token may be an operator while its immediate
predecessor is one. -/
def noConsecOps : List String → Bool
  | a :: b :: rest => !(isOp a && isOp b) && noConsecOps (b :: rest)
  | _ => true

/-- Embedding of `isValidQuerySyntax` (querier.c): non-empty, does not
start or end with an operator, no two consecutive operators. -/
def isValidQuerySyntax (words : List String) : Bool :=
  match words with
  | [] => false
  | w :: _ =>
      if isOp w then false
      else if isOp (words.getLastD "") then false
      else noConsecOps words

/-! ### Querier: ranking (querier.c) -/

/-- Ordering produced by `compareScores` (querier.c): a document sorts no
later than another when its score is at least the other's. -/
def scoreGe (a b : Int × Int) : Prop := b.2 ≤ a.2

instance : DecidableRel scoreGe := fun a b => inferInstanceAs (Decidable (b.2 ≤ a.2))

instance : IsTotal (Int × Int) scoreGe := ⟨fun a b => le_total b.2 a.2⟩

instance : IsTrans (Int × Int) scoreGe := ⟨fun _ _ _ h1 h2 => le_trans h2 h1⟩

/-- Sorting by non-increasing score, modelling the `qsort(docScores, n,
sizeof(docScore_t), compareScores)` call.  `qsort` is unstable and the
tie-break order between equal scores is not part of the contract, so any
sort by `scoreGe` is an admissible model. -/
def sortDesc (l : List (Int × Int)) : List (Int × Int) :=
  List.insertionSort scoreGe l

/-- Embedding of `printRankedResults` (querier.c), abstracted to the list
of (docID, score) lines it prints: entries with positive score, collected
in iteration order and sorted by descending score; an empty selection
prints "No documents match." and no result line.  A NULL result behaves as
empty (`counters_iterate` ignores NULL). -/
def printRankedResults (result : Option counters_t) : List (Int × Int) :=
  sortDesc ((result.getD []).filter (fun p => 0 < p.2))

/-- Embedding of `processQuery` (querier.c), abstracted to what it hands
on: `none` when the query is rejected (bad character, no tokens, bad
syntax) — no evaluation, no result —, otherwise the echoed token list and
the evaluation result. -/
def processQuery (query : List Char) (idx : index_t) :
    Option (List String × Option counters_t) :=
  if !isValidCharacters query then none
  else
    let words := queryTokenize query (query.length / 2 + 1)
    if words.length = 0 then none
    else if !isValidQuerySyntax words then none
    else some (words, queryEvaluate words idx)

/-! ### Basic lemmas about the counters model -/

/-- Structural invariant of a real `counters_t`: at most one entry per
document identifier. -/
def NoDupKeys (c : counters_t) : Prop := (ckeys c).Nodup

theorem counters_get_cons (a b k : Int) (rest : counters_t) :
    counters_get ((a, b) :: rest) k = if a = k then b else counters_get rest k := rfl

theorem counters_set_cons (a b k v : Int) (rest : counters_t) :
    counters_set ((a, b) :: rest) k v =
      if a = k then (a, v) :: rest else (a, b) :: counters_set rest k v := rfl

theorem ckeys_nil : ckeys [] = [] := rfl

theorem ckeys_cons (p : Int × Int) (rest : counters_t) :
    ckeys (p :: rest) = p.1 :: ckeys rest := rfl

theorem counters_get_eq_zero_of_not_mem : ∀ {c : counters_t} {k : Int},
    k ∉ ckeys c → counters_get c k = 0 := by
  intro c
  induction c with
  | nil => intro k _; rfl
  | cons p rest ih =>
      intro k h
      obtain ⟨a, b⟩ := p
      rw [ckeys_cons, List.mem_cons, not_or] at h
      rw [counters_get_cons, if_neg (fun he => h.1 he.symm)]
      exact ih h.2

theorem counters_get_of_mem {k v : Int} : ∀ {c : counters_t},
    NoDupKeys c → (k, v) ∈ c → counters_get c k = v := by
  intro c
  induction c with
  | nil => intro _ h; cases h
  | cons p rest ih =>
      intro hnd h
      obtain ⟨a, b⟩ := p
      simp only [NoDupKeys, ckeys_cons, List.nodup_cons] at hnd
      rcases List.mem_cons.mp h with h1 | h1
      · rw [Prod.mk.injEq] at h1
        obtain ⟨rfl, rfl⟩ := h1
        simp [counters_get_cons]
      · have hk : a ≠ k := by
          intro he
          subst he
          exact hnd.1 (List.mem_map_of_mem Prod.fst h1)
        rw [counters_get_cons, if_neg hk]
        exact ih hnd.2 h1

theorem counters_get_set_self (c : counters_t) (k v : Int) :
    counters_get (counters_set c k v) k = v := by
  induction c with
  | nil => simp [counters_set, counters_get]
  | cons p rest ih =>
      obtain ⟨a, b⟩ := p
      by_cases h : a = k
      · simp [counters_set_cons, counters_get_cons, h]
      · simp [counters_set_cons, counters_get_cons, h, ih]

theorem counters_get_set_ne (c : counters_t) {k k' : Int} (v : Int)
    (h : k ≠ k') : counters_get (counters_set c k v) k' = counters_get c k' := by
  induction c with
  | nil => simp [counters_set, counters_get, h]
  | cons p rest ih =>
      obtain ⟨a, b⟩ := p
      by_cases hp : a = k
      · subst hp
        simp [counters_set_cons, counters_get_cons, h]
      · simp only [counters_set_cons, if_neg hp, counters_get_cons]
        by_cases hp' : a = k'
        · simp [hp']
        · simp [hp', ih]

theorem mem_ckeys_set : ∀ (c : counters_t) (k v k' : Int),
    k' ∈ ckeys (counters_set c k v) ↔ k' ∈ ckeys c ∨ k' = k := by
  intro c k v
  induction c with
  | nil => intro k'; simp [counters_set, ckeys, eq_comm]
  | cons p rest ih =>
      intro k'
      obtain ⟨a, b⟩ := p
      by_cases hp : a = k
      · subst hp
        simp only [counters_set_cons, eq_self_iff_true, if_true, ckeys_cons,
          List.mem_cons]
        tauto
      · simp only [counters_set_cons, if_neg hp, ckeys_cons, List.mem_cons, ih k']
        tauto

theorem nodup_set (k v : Int) : ∀ {c : counters_t},
    NoDupKeys c → NoDupKeys (counters_set c k v) := by
  intro c
  induction c with
  | nil => intro _; simp [NoDupKeys, counters_set, ckeys]
  | cons p rest ih =>
      intro h
      obtain ⟨a, b⟩ := p
      simp only [NoDupKeys, ckeys_cons, List.nodup_cons] at h
      by_cases hp : a = k
      · subst hp
        simp only [counters_set_cons, eq_self_iff_true, if_true, NoDupKeys,
          ckeys_cons, List.nodup_cons]
        exact h
      · have h2 := ih h.2
        simp only [counters_set_cons, if_neg hp, NoDupKeys, ckeys_cons,
          List.nodup_cons]
        refine ⟨fun hc => ?_, h2⟩
        rcases (mem_ckeys_set rest k v a).mp hc with hm | hm
        · exact h.1 hm
        · exact hp hm

theorem counters_get_nonneg : ∀ {c : counters_t} {k : Int},
    (∀ p ∈ c, 0 ≤ p.2) → 0 ≤ counters_get c k := by
  intro c
  induction c with
  | nil => intro k _; simp [counters_get]
  | cons p rest ih =>
      intro k h
      obtain ⟨a, b⟩ := p
      rw [counters_get_cons]
      by_cases hp : a = k
      · rw [if_pos hp]
        exact h (a, b) (List.mem_cons_self _ _)
      · rw [if_neg hp]
        exact ih (fun q hq => h q (List.mem_cons_of_mem _ hq))

theorem addAll_cons (dst : counters_t) (a b : Int) (rest : counters_t) :
    addAllCounts dst ((a, b) :: rest) =
      addAllCounts (counters_set dst a (counters_get dst a + b)) rest := rfl

/-- Pointwise effect of the `callbackAddCounts` iteration: when the source
has no duplicate keys, every key's count in the destination grows by
exactly its count in the source. -/
theorem counters_get_addAll : ∀ {src : counters_t} (dst : counters_t),
    NoDupKeys src → ∀ k, counters_get (addAllCounts dst src) k =
      counters_get dst k + counters_get src k := by
  intro src
  induction src with
  | nil => intro dst _ k; simp [addAllCounts, counters_get]
  | cons p rest ih =>
      intro dst hnd k
      obtain ⟨a, b⟩ := p
      simp only [NoDupKeys, ckeys_cons, List.nodup_cons] at hnd
      rw [addAll_cons, ih _ hnd.2 k, counters_get_cons]
      by_cases hk : a = k
      · subst hk
        rw [counters_get_set_self, if_pos rfl,
          counters_get_eq_zero_of_not_mem hnd.1]
        omega
      · rw [counters_get_set_ne _ _ hk, if_neg hk]

theorem nodup_addAll : ∀ (src : counters_t) {dst : counters_t},
    NoDupKeys dst → NoDupKeys (addAllCounts dst src) := by
  intro src
  induction src with
  | nil => intro dst h; exact h
  | cons p rest ih =>
      intro dst h
      rw [addAll_cons]
      exact ih (nodup_set _ _ h)

theorem mem_ckeys_addAll : ∀ (src dst : counters_t) (k : Int),
    k ∈ ckeys (addAllCounts dst src) ↔ k ∈ ckeys dst ∨ k ∈ ckeys src := by
  intro src
  induction src with
  | nil => intro dst k; simp [addAllCounts, ckeys]
  | cons p rest ih =>
      intro dst k
      rw [addAll_cons, ih, mem_ckeys_set, ckeys_cons, List.mem_cons]
      tauto

theorem nodup_copy (src : counters_t) : NoDupKeys (copyCounters src) :=
  nodup_addAll src (by simp [NoDupKeys, ckeys])

theorem counters_get_copy {src : counters_t} (hnd : NoDupKeys src) (k : Int) :
    counters_get (copyCounters src) k = counters_get src k := by
  unfold copyCounters
  rw [counters_get_addAll _ hnd k]
  simp [counters_get]

theorem ckeys_intersect (acc wc : counters_t) :
    ckeys (intersectCounters acc wc) = ckeys acc := by
  unfold ckeys intersectCounters
  rw [List.map_map]
  rfl

theorem nodup_intersect {acc : counters_t} (wc : counters_t)
    (h : NoDupKeys acc) : NoDupKeys (intersectCounters acc wc) := by
  unfold NoDupKeys
  rw [ckeys_intersect]
  exact h

theorem counters_getOpt_some (c : counters_t) (k : Int) :
    counters_getOpt (some c) k = counters_get c k := rfl

theorem counters_getOpt_none (k : Int) :
    counters_getOpt none k = 0 := rfl

theorem mem_of_mem_ckeys {c : counters_t} {d : Int} (h : d ∈ ckeys c) :
    ∃ v, (d, v) ∈ c := by
  unfold ckeys at h
  obtain ⟨p, hp, he⟩ := List.mem_map.mp h
  exact ⟨p.2, by rwa [show ((d, p.2) = p) from by rw [← he]]⟩

theorem values_nonneg_set {c : counters_t} {k v : Int}
    (hc : ∀ p ∈ c, 0 ≤ p.2) (hv : 0 ≤ v) :
    ∀ p ∈ counters_set c k v, 0 ≤ p.2 := by
  induction c with
  | nil =>
      intro p hp
      rcases List.mem_singleton.mp hp with rfl
      exact hv
  | cons q rest ih =>
      obtain ⟨a, b⟩ := q
      intro p hp
      by_cases hq : a = k
      · rw [counters_set_cons, if_pos hq] at hp
        rcases List.mem_cons.mp hp with rfl | hm
        · exact hv
        · exact hc p (List.mem_cons_of_mem _ hm)
      · rw [counters_set_cons, if_neg hq] at hp
        rcases List.mem_cons.mp hp with rfl | hm
        · exact hc (a, b) (List.mem_cons_self _ _)
        · exact ih (fun q hq' => hc q (List.mem_cons_of_mem _ hq')) p hm

theorem values_nonneg_addAll : ∀ {src dst : counters_t},
    (∀ p ∈ dst, 0 ≤ p.2) → (∀ p ∈ src, 0 ≤ p.2) →
    ∀ p ∈ addAllCounts dst src, 0 ≤ p.2 := by
  intro src
  induction src with
  | nil => intro dst hd _ p hp; exact hd p hp
  | cons q rest ih =>
      intro dst hd hs p hp
      obtain ⟨a, b⟩ := q
      rw [addAll_cons] at hp
      refine ih (values_nonneg_set hd ?_) (fun r hr => hs r (List.mem_cons_of_mem _ hr)) p hp
      have h1 : (0 : Int) ≤ counters_get dst a := counters_get_nonneg hd
      have h2 : (0 : Int) ≤ b := hs (a, b) (List.mem_cons_self _ _)
      omega

theorem counters_get_intersect_of_mem {acc : counters_t} (wc : counters_t)
    (hnd : NoDupKeys acc) {d c : Int} (h : (d, c) ∈ acc) :
    counters_get (intersectCounters acc wc) d = min c (counters_get wc d) := by
  have hm : (d, if c < counters_get wc d then c else counters_get wc d) ∈
      intersectCounters acc wc := by
    have := List.mem_map_of_mem
      (fun p : Int × Int => (p.1, if p.2 < counters_get wc p.1 then p.2 else counters_get wc p.1)) h
    exact this
  have := counters_get_of_mem (nodup_intersect wc hnd) hm
  rw [this]
  rcases lt_or_ge c (counters_get wc d) with hlt | hge
  · rw [if_pos hlt, min_eq_left (le_of_lt hlt)]
  · rw [if_neg (not_lt.mpr hge), min_eq_right hge]

/-- C2: AND semantics via min-merge.  `intersectCounters` sets every entry
`(d, c)` of the accumulator to `min c (src.get d)` (`get` being 0 for a
document absent from `src`), never adds entries present only in `src`, and
consequently a two-word AND query over words indexed on disjoint document
sets yields a result in which every document scores 0.  The `NoDupKeys`
hypotheses are the structural invariant of every real counters object. -/
theorem and_min_merge_semantics (dst src : counters_t) (hnd : NoDupKeys dst) :
    (∀ d c : Int, (d, c) ∈ dst →
      counters_get (intersectCounters dst src) d = min c (counters_get src d))
    ∧ ckeys (intersectCounters dst src) = ckeys dst
    ∧ (∀ (idx : index_t) (w1 w2 : String) (c1 c2 : counters_t),
        isOp w1 = false → isOp w2 = false →
        index_find idx w1 = some c1 → index_find idx w2 = some c2 →
        (∀ d ∈ ckeys c1, d ∉ ckeys c2) →
        (∀ p ∈ c1, 0 ≤ p.2) →
        ∀ d, counters_getOpt (queryEvaluate [w1, "and", w2] idx) d = 0) := by
  refine ⟨fun d c h => counters_get_intersect_of_mem src hnd h,
    ckeys_intersect dst src, ?_⟩
  intro idx w1 w2 c1 c2 hop1 hop2 hf1 hf2 hdisj hpos d
  simp only [isOp, Bool.or_eq_false_iff, decide_eq_false_iff_not] at hop1 hop2
  have st1 : evalStep idx ⟨none, none, false⟩ w1 =
      ⟨some (copyCounters c1), none, false⟩ := by
    unfold evalStep
    rw [if_neg hop1.2, if_neg (by simp), if_neg hop1.1, hf1]
  have st2 : evalStep idx ⟨some (copyCounters c1), none, false⟩ "and" =
      ⟨some (copyCounters c1), none, false⟩ := by
    unfold evalStep
    rw [if_neg (by simp), if_neg (by simp), if_pos rfl]
  have st3 : evalStep idx ⟨some (copyCounters c1), none, false⟩ w2 =
      ⟨some (intersectCounters (copyCounters c1) c2), none, false⟩ := by
    unfold evalStep
    rw [if_neg hop2.2, if_neg (by simp), if_neg hop2.1, hf2]
  have : queryEvaluate [w1, "and", w2] idx =
      some (addAllCounts [] (intersectCounters (copyCounters c1) c2)) := by
    unfold queryEvaluate
    rw [List.foldl_cons, List.foldl_cons, List.foldl_cons, List.foldl_nil,
      st1, st2, st3]
    rfl
  rw [this, counters_getOpt_some]
  set X := intersectCounters (copyCounters c1) c2 with hX
  have hndX : NoDupKeys X := nodup_intersect c2 (nodup_copy c1)
  rw [counters_get_addAll _ hndX d]
  have hz : counters_get ([] : counters_t) d = 0 := rfl
  rw [hz]
  by_cases hmem : d ∈ ckeys (copyCounters c1)
  · obtain ⟨v, hv⟩ := mem_of_mem_ckeys hmem
    have hd1 : d ∈ ckeys c1 := by
      rcases (mem_ckeys_addAll c1 [] d).mp hmem with h0 | h1
      · cases h0
      · exact h1
    have hc2 : counters_get c2 d = 0 :=
      counters_get_eq_zero_of_not_mem (hdisj d hd1)
    have hvpos : 0 ≤ v := by
      have : ∀ p ∈ copyCounters c1, 0 ≤ p.2 :=
        values_nonneg_addAll (by intro p hp; cases hp) hpos
      exact this (d, v) hv
    rw [counters_get_intersect_of_mem c2 (nodup_copy c1) hv, hc2]
    omega
  · have : d ∉ ckeys X := by
      rw [hX, ckeys_intersect]
      exact hmem
    rw [counters_get_eq_zero_of_not_mem this]
    omega

/-- Witness for C2 at a concrete accumulator and source. -/
theorem and_min_merge_semantics_witness :
    counters_get (intersectCounters [((1 : Int), (2 : Int))] [((1 : Int), (5 : Int))]) 1 =
      min 2 (counters_get [((1 : Int), (5 : Int))] 1) :=
  (and_min_merge_semantics [(1, 2)] [(1, 5)]
    (by unfold NoDupKeys; decide)).1 1 2 (by decide)

/-- C3: OR semantics via sum-merge.  `unionCounters` adds, for every entry
`(d, c)` of the source, `c` to the destination's count for `d`, creating
the entry if absent and leaving entries present only in the destination
unchanged; and on an index where `wone` matches document 5 with count 2 and
`wtwo` matches it with count 3, the query `wone or wtwo` scores document 5
at 5.  The `NoDupKeys` hypothesis is the structural invariant of every
real counters object. -/
theorem or_sum_merge_semantics (dst src : counters_t) (hnd : NoDupKeys src) :
    (∀ d c : Int, (d, c) ∈ src →
        counters_get (unionCounters dst src) d = counters_get dst d + c)
    ∧ (∀ d c : Int, (d, c) ∈ src → d ∈ ckeys (unionCounters dst src))
    ∧ (∀ d : Int, d ∉ ckeys src →
        counters_get (unionCounters dst src) d = counters_get dst d)
    ∧ counters_getOpt (queryEvaluate ["wone", "or", "wtwo"]
        [("wone", [(5, 2)]), ("wtwo", [(5, 3)])]) 5 = 5 := by
  refine ⟨?_, ?_, ?_, by decide⟩
  · intro d c h
    unfold unionCounters
    rw [counters_get_addAll _ hnd d, counters_get_of_mem hnd h]
  · intro d c h
    unfold unionCounters
    rw [mem_ckeys_addAll]
    exact Or.inr (List.mem_map_of_mem Prod.fst h)
  · intro d h
    unfold unionCounters
    rw [counters_get_addAll _ hnd d, counters_get_eq_zero_of_not_mem h]
    omega

/-- Witness for C3 at a concrete destination and source. -/
theorem or_sum_merge_semantics_witness :
    counters_get (unionCounters [((5 : Int), (2 : Int))] [((5 : Int), (3 : Int))]) 5 =
      counters_get [((5 : Int), (2 : Int))] 5 + 3 :=
  (or_sum_merge_semantics [(5, 2)] [(5, 3)]
    (by unfold NoDupKeys; decide)).1 5 3 (by decide)

/-- C7: ranking.  `printRankedResults` selects exactly the entries of the
result whose score is strictly positive (zero-count entries are excluded)
and emits them in non-increasing score order; the relative order of equal
scores is left to the (unstable) sort. -/
theorem ranking_selection_order (result : Option counters_t) :
    List.Perm (printRankedResults result)
        ((result.getD []).filter (fun p => 0 < p.2))
    ∧ List.Sorted scoreGe (printRankedResults result) := by
  unfold printRankedResults sortDesc
  exact ⟨List.perm_insertionSort scoreGe _, List.sorted_insertionSort scoreGe _⟩

/-! ### Tokenization lemmas (querier.c queryTokenize) -/

theorem dropWs_length (s : List Char) : (dropWs s).length ≤ s.length := by
  induction s with
  | nil => simp [dropWs]
  | cons c rest ih =>
      unfold dropWs
      by_cases h : isSpaceC c = true
      · rw [if_pos h]
        exact le_trans ih (by simp)
      · rw [if_neg h]

theorem takeTok_lengths (s : List Char) :
    (takeTok s).1.length + (takeTok s).2.length = s.length := by
  induction s with
  | nil => simp [takeTok]
  | cons c rest ih =>
      unfold takeTok
      by_cases h : isSpaceC c = true
      · rw [if_pos h]
        simp
      · rw [if_neg h]
        simp only [List.length_cons]
        omega

theorem takeTok_rest_ws (s : List Char) :
    (takeTok s).2 = [] ∨
      ∃ c r, (takeTok s).2 = c :: r ∧ isSpaceC c = true := by
  induction s with
  | nil => left; rfl
  | cons c rest ih =>
      unfold takeTok
      by_cases h : isSpaceC c = true
      · rw [if_pos h]
        exact Or.inr ⟨c, rest, rfl, h⟩
      · rw [if_neg h]
        exact ih

theorem splitWsAux_fuel_eq : ∀ (f g : Nat) (s : List Char),
    s.length < f → s.length < g → splitWsAux f s = splitWsAux g s := by
  intro f
  induction f with
  | zero => intro g s hf _; omega
  | succ f1 ih =>
      intro g s hf hg
      cases g with
      | zero => omega
      | succ g1 =>
          rcases htk : takeTok (dropWs s) with ⟨t, r⟩
          show splitWsAux (f1 + 1) s = splitWsAux (g1 + 1) s
          unfold splitWsAux
          rw [htk]
          cases t with
          | nil => rfl
          | cons c t' =>
              have hlen : (c :: t').length + r.length = (dropWs s).length := by
                have := takeTok_lengths (dropWs s)
                rw [htk] at this
                exact this
              have hds := dropWs_length s
              simp only [List.length_cons] at hlen
              have h1 : r.length < f1 := by omega
              have h2 : r.length < g1 := by omega
              show (c :: t') :: splitWsAux f1 r = (c :: t') :: splitWsAux g1 r
              rw [ih g1 r h1 h2]

theorem splitWs_unfold (s : List Char) :
    splitWs s = match takeTok (dropWs s) with
      | ([], _) => []
      | (t, r) => t :: splitWs r := by
  rcases htk : takeTok (dropWs s) with ⟨t, r⟩
  show splitWsAux (s.length + 1) s = _
  unfold splitWsAux
  rw [htk]
  cases t with
  | nil => rfl
  | cons c t' =>
      have hlen : (c :: t').length + r.length = (dropWs s).length := by
        have := takeTok_lengths (dropWs s)
        rw [htk] at this
        exact this
      have hds := dropWs_length s
      simp only [List.length_cons] at hlen
      have hr : r.length < s.length := by omega
      show (c :: t') :: splitWsAux s.length r = (c :: t') :: splitWs r
      rw [splitWsAux_fuel_eq s.length (r.length + 1) r hr (by omega)]
      rfl

theorem splitWs_nil : splitWs [] = [] := rfl

theorem splitWs_cons_ws {c : Char} (r : List Char) (hc : isSpaceC c = true) :
    splitWs (c :: r) = splitWs r := by
  have hdr : dropWs (c :: r) = dropWs r := by
    show (if isSpaceC c = true then dropWs r else c :: r) = dropWs r
    rw [if_pos hc]
  rw [splitWs_unfold, splitWs_unfold r, hdr]

theorem two_mul_splitWs_le : ∀ (n : Nat) (s : List Char), s.length ≤ n →
    2 * (splitWs s).length ≤ s.length + 1 := by
  intro n
  induction n with
  | zero =>
      intro s hs
      have : s = [] := List.length_eq_zero.mp (Nat.le_zero.mp hs)
      subst this
      simp [splitWs_nil]
  | succ n ih =>
      intro s hs
      rcases htk : takeTok (dropWs s) with ⟨t, r⟩
      rw [splitWs_unfold, htk]
      have hlen : t.length + r.length = (dropWs s).length := by
        have := takeTok_lengths (dropWs s)
        rw [htk] at this
        exact this
      have hds := dropWs_length s
      cases t with
      | nil => simp
      | cons c t' =>
          simp only [List.length_cons] at hlen
          have hrest := takeTok_rest_ws (dropWs s)
          rw [htk] at hrest
          simp only [] at hrest
          rcases hrest with hre | ⟨c', r'', hre, hws⟩
          · subst hre
            show 2 * ((c :: t') :: splitWs []).length ≤ s.length + 1
            simp only [splitWs_nil, List.length_cons, List.length_nil]
            omega
          · subst hre
            show 2 * ((c :: t') :: splitWs (c' :: r'')).length ≤ s.length + 1
            rw [splitWs_cons_ws r'' hws]
            simp only [List.length_cons] at hlen
            have hih := ih r'' (by omega)
            simp only [List.length_cons]
            omega

/-- Token-level agreement of `queryTokenize` with the uncapped token split,
whenever the cap is at least the token count. -/
theorem queryTokenizeAux_eq : ∀ (f cap : Nat) (s : List Char),
    s.length < f → (splitWs s).length ≤ cap →
    queryTokenizeAux f cap s = (splitWs s).map (List.map toLowerC) := by
  intro f
  induction f with
  | zero => intro cap s hf _; omega
  | succ f1 ih =>
      intro cap s hf hcap
      rw [splitWs_unfold] at hcap ⊢
      unfold queryTokenizeAux
      rcases htk : takeTok (dropWs s) with ⟨t, r⟩
      rw [htk] at hcap
      cases t with
      | nil => rfl
      | cons c t' =>
          have hlen : (c :: t').length + r.length = (dropWs s).length := by
            have := takeTok_lengths (dropWs s)
            rw [htk] at this
            exact this
          have hds := dropWs_length s
          simp only [List.length_cons] at hlen
          simp only [List.length_cons] at hcap
          have hcap0 : cap ≠ 0 := by omega
          simp only [if_neg hcap0]
          rw [ih (cap - 1) r (by omega) (by omega)]
          simp

/-- C10: tokenizer capacity.  For every query line, the number of maximal
whitespace-separated tokens is at most `strlen(q)/2 + 1`, so the
`queryTokenize` call made by `processQuery` with that cap never takes its
truncation branch: it stores every token, lowercased, and returns exactly
the token count (0 for an empty or all-whitespace line). -/
theorem tokenizer_capacity (q : List Char) :
    (splitWs q).length ≤ q.length / 2 + 1
    ∧ queryTokenize q (q.length / 2 + 1) =
        (splitWs q).map (fun t => String.mk (t.map toLowerC)) := by
  have hb := two_mul_splitWs_le q.length q (le_refl _)
  have hcount : (splitWs q).length ≤ q.length / 2 + 1 := by omega
  refine ⟨hcount, ?_⟩
  unfold queryTokenize
  rw [queryTokenizeAux_eq (q.length + 1) (q.length / 2 + 1) q (by omega) hcount]
  rw [List.map_map]
  rfl

/-! ### Syntax validation lemmas (querier.c isValidQuerySyntax) -/

theorem noConsecOps_iff : ∀ l : List String, noConsecOps l = true ↔
    List.Chain' (fun a b => ¬(isOp a = true ∧ isOp b = true)) l := by
  intro l
  induction l with
  | nil => simp [noConsecOps]
  | cons a rest ih =>
      cases rest with
      | nil => simp [noConsecOps]
      | cons b rest' =>
          rw [List.chain'_cons, ← ih]
          show (!(isOp a && isOp b) && noConsecOps (b :: rest')) = true ↔ _
          cases ha : isOp a <;> cases hb : isOp b <;> simp

theorem validator_cons (w : String) (rest : List String) :
    isValidQuerySyntax (w :: rest) =
      if isOp w then false
      else if isOp ((w :: rest).getLastD "") then false
      else noConsecOps (w :: rest) := rfl

/-- C6: syntax rejection before evaluation.  A token sequence is accepted
by `isValidQuerySyntax` exactly when it is non-empty, neither starts nor
ends with an operator, and has no operator immediately preceded by another
operator; and whenever the tokenization of a query line fails this test,
`processQuery` rejects the line before any evaluation, producing no
result. -/
theorem syntax_rejection (ws : List String) (q : List Char) (idx : index_t)
    (hws : ws = queryTokenize q (q.length / 2 + 1)) :
    (isValidQuerySyntax ws = true ↔
      (ws ≠ [] ∧ (∀ w, ws.head? = some w → isOp w = false) ∧
        (∀ w, ws.getLast? = some w → isOp w = false) ∧
        List.Chain' (fun a b => ¬(isOp a = true ∧ isOp b = true)) ws))
    ∧ (isValidQuerySyntax ws = false → processQuery q idx = none) := by
  constructor
  · cases ws with
    | nil => simp [isValidQuerySyntax]
    | cons w rest =>
        have hlast : (w :: rest).getLast? = some ((w :: rest).getLastD "") := by
          rw [List.getLastD_eq_getLast?]
          cases hl : (w :: rest).getLast? with
          | none =>
              exact absurd hl (by simp [List.getLast?_isSome])
          | some x => rfl
        rw [validator_cons]
        by_cases h1 : isOp w = true
        · rw [if_pos h1]
          constructor
          · intro h; cases h
          · rintro ⟨_, hh, _, _⟩
            have := hh w rfl
            rw [h1] at this
            cases this
        · rw [if_neg h1]
          by_cases h2 : isOp ((w :: rest).getLastD "") = true
          · rw [if_pos h2]
            constructor
            · intro h; cases h
            · rintro ⟨_, _, hl, _⟩
              have := hl _ hlast
              rw [h2] at this
              cases this
          · rw [if_neg h2]
            rw [noConsecOps_iff]
            constructor
            · intro hch
              refine ⟨by simp, ?_, ?_, hch⟩
              · intro w' hw'
                rw [List.head?_cons, Option.some.injEq] at hw'
                subst hw'
                exact Bool.not_eq_true _ ▸ eq_false_of_ne_true h1
              · intro w' hw'
                rw [hlast, Option.some.injEq] at hw'
                subst hw'
                exact eq_false_of_ne_true h2
            · rintro ⟨_, _, _, hch⟩
              exact hch
  · intro hbad
    unfold processQuery
    by_cases hch : isValidCharacters q = true
    · rw [hch]
      simp only [Bool.not_true, Bool.false_eq_true, if_false]
      rw [← hws]
      by_cases hlen : ws.length = 0
      · rw [if_pos hlen]
      · rw [if_neg hlen, hbad]
        simp
    · have : isValidCharacters q = false := eq_false_of_ne_true hch
      rw [this]
      simp

/-- Witness for C6: the line "and dog" tokenizes to an operator-led
sequence, fails validation, and is rejected by processQuery with no
result. -/
theorem syntax_rejection_witness :
    isValidQuerySyntax
        (queryTokenize ("and dog\n".toList) (("and dog\n".toList).length / 2 + 1)) = false
      ∧ processQuery ("and dog\n".toList) [] = none := by
  refine ⟨by decide, ?_⟩
  exact (syntax_rejection
    (queryTokenize ("and dog\n".toList) (("and dog\n".toList).length / 2 + 1))
    ("and dog\n".toList) [] rfl).2 (by decide)

/-- C5 counterexample: `index_load` does not fail on input that violates
the index file format.  On the malformed line "dog 1 2 3 x" it silently
drops the unparsable fragment and returns a partially populated index
(with dog -> {1: 2}), rather than signalling any error. -/
theorem restore_malformed_counterexample :
    index_load ("dog 1 2 3 x\n".toList) = [("dog", [(1, 2)])] := by decide

/-- C5 (amended): `index_load` performs no format validation and has no
error path.  On input violating the index file format it installs every
complete (word, docID, count) triple it can scan and silently skips
unparsable fragments, returning the resulting — possibly empty or
partially populated — index; it never signals a MalformedIndexError.
Exercised on three malformed inputs: a trailing non-integer token, a line
that begins with a number, and a word with a non-integer count. -/
theorem restore_lenient_no_error :
    index_load ("dog 1 2 3 x\n".toList) = [("dog", [(1, 2)])]
    ∧ index_load ("7 dog 1 2\n".toList) = [("dog", [(1, 2)])]
    ∧ index_load ("dog 1 two\n".toList) = [] := by
  refine ⟨by decide, by decide, by decide⟩

/-! ### Stepping lemmas for the queryEvaluate loop (querier.c) -/

theorem matchMerge_none (o : Option counters_t) : matchMerge none o = o := rfl

theorem matchMerge_some (x : counters_t) (o : Option counters_t) :
    matchMerge (some x) o = some (unionCounters (o.getD []) x) := rfl

theorem evalStep_or (idx : index_t) (st : EvalState) :
    evalStep idx st "or" = ⟨none, matchMerge st.andSeq st.orSeq, false⟩ := by
  unfold evalStep
  rw [if_pos rfl]

theorem evalStep_and (idx : index_t) (st : EvalState) (hinv : st.invalid = false) :
    evalStep idx st "and" = st := by
  unfold evalStep
  rw [if_neg (by decide), if_neg (by simp [hinv]), if_pos rfl]

theorem evalStep_skip (idx : index_t) (st : EvalState) (w : String)
    (hwo : w ≠ "or") (hinv : st.invalid = true) : evalStep idx st w = st := by
  unfold evalStep
  rw [if_neg hwo, if_pos hinv]

theorem evalStep_found (idx : index_t) (st : EvalState) (w : String)
    (cw : counters_t) (hwa : w ≠ "and") (hwo : w ≠ "or")
    (hinv : st.invalid = false) (hf : index_find idx w = some cw) :
    evalStep idx st w =
      match st.andSeq with
      | none => { st with andSeq := some (copyCounters cw) }
      | some acc => { st with andSeq := some (intersectCounters acc cw) } := by
  unfold evalStep
  rw [if_neg hwo, if_neg (by simp [hinv]), if_neg hwa, hf]

theorem evalStep_missing (idx : index_t) (st : EvalState) (w : String)
    (hwa : w ≠ "and") (hwo : w ≠ "or")
    (hinv : st.invalid = false) (hf : index_find idx w = none) :
    evalStep idx st w = { st with andSeq := none, invalid := true } := by
  unfold evalStep
  rw [if_neg hwo, if_neg (by simp [hinv]), if_neg hwa, hf]

/-! ### C8: the NULL result of queryEvaluate when no chain matches -/

/-- Or-separated chains of a token sequence: the maximal runs of tokens
between explicit `or` tokens (the AND-chains of the query, `and` tokens
included). -/
def orSegments : List String → List (List String)
  | [] => [[]]
  | w :: rest =>
      if w = "or" then [] :: orSegments rest
      else
        match orSegments rest with
        | [] => [[w]]
        | seg :: segs => (w :: seg) :: segs

theorem orSegments_ne_nil (ws : List String) : orSegments ws ≠ [] := by
  cases ws with
  | nil => simp [orSegments]
  | cons w rest =>
      unfold orSegments
      by_cases h : w = "or"
      · rw [if_pos h]; simp
      · rw [if_neg h]
        cases orSegments rest <;> simp

/-- Invariant of the `queryEvaluate` loop over a query whose every
remaining AND-chain contains an unindexed word: the OR accumulator is
never allocated, and the AND accumulator is dead once the input is
exhausted.  The right disjunct is the mid-chain state after the current
chain has already failed. -/
theorem chainsDead_fold (idx : index_t) : ∀ (ws : List String) (st : EvalState),
    st.orSeq = none →
    ((st.invalid = false ∧ ∀ seg ∈ orSegments ws,
        ∃ w ∈ seg, isOp w = false ∧ index_find idx w = none)
      ∨ (st.invalid = true ∧ st.andSeq = none ∧
        ∀ seg ∈ (orSegments ws).tail,
          ∃ w ∈ seg, isOp w = false ∧ index_find idx w = none)) →
    (List.foldl (evalStep idx) st ws).orSeq = none ∧
      (List.foldl (evalStep idx) st ws).andSeq = none := by
  intro ws
  induction ws with
  | nil =>
      intro st horig hbr
      rcases hbr with ⟨_, hall⟩ | ⟨_, han, _⟩
      · obtain ⟨w0, hw0, _⟩ := hall []
          (by rw [show orSegments [] = [[]] from rfl]
              exact List.mem_singleton.mpr rfl)
        cases hw0
      · exact ⟨horig, han⟩
  | cons w rest ih =>
      intro st horig hbr
      rw [List.foldl_cons]
      by_cases hor : w = "or"
      · subst hor
        have hsegOr : orSegments ("or" :: rest) = [] :: orSegments rest := rfl
        rcases hbr with ⟨_, hall⟩ | ⟨_, han, htail⟩
        · obtain ⟨w0, hw0, _⟩ := hall []
            (by rw [hsegOr]; exact List.mem_cons_self _ _)
          cases hw0
        · rw [evalStep_or]
          apply ih
          · show matchMerge st.andSeq st.orSeq = none
            rw [han, horig]
            rfl
          · left
            refine ⟨rfl, ?_⟩
            intro seg hseg
            apply htail
            rw [hsegOr, List.tail_cons]
            exact hseg
      · obtain ⟨s0, segs, hsegs⟩ : ∃ s0 segs, orSegments rest = s0 :: segs := by
          cases hx : orSegments rest with
          | nil => exact absurd hx (orSegments_ne_nil rest)
          | cons a b => exact ⟨a, b, rfl⟩
        have hcons : orSegments (w :: rest) = (w :: s0) :: segs := by
          unfold orSegments
          rw [if_neg hor, hsegs]
        rcases hbr with ⟨hf, hall⟩ | ⟨ht, han, htail⟩
        · have hrest2 : ∀ seg ∈ segs,
              ∃ w0 ∈ seg, isOp w0 = false ∧ index_find idx w0 = none :=
            fun seg hm => hall seg (by
              rw [hcons]
              exact List.mem_cons_of_mem _ hm)
          have hheadfull : ∃ w0 ∈ w :: s0,
              isOp w0 = false ∧ index_find idx w0 = none :=
            hall (w :: s0) (by rw [hcons]; exact List.mem_cons_self _ _)
          by_cases hand : w = "and"
          · subst hand
            rw [evalStep_and idx st hf]
            apply ih st horig
            left
            refine ⟨hf, ?_⟩
            intro seg hseg
            rw [hsegs] at hseg
            rcases List.mem_cons.mp hseg with he | hm
            · rw [he]
              obtain ⟨w0, hw0, hop0, hfind0⟩ := hheadfull
              rcases List.mem_cons.mp hw0 with he0 | hm0
              · rw [he0] at hop0
                exact absurd hop0 (by decide)
              · exact ⟨w0, hm0, hop0, hfind0⟩
            · exact hrest2 seg hm
          · cases hfind : index_find idx w with
            | some cw =>
                have hhead : ∃ w0 ∈ s0,
                    isOp w0 = false ∧ index_find idx w0 = none := by
                  obtain ⟨w0, hw0, hop0, hfind0⟩ := hheadfull
                  rcases List.mem_cons.mp hw0 with he0 | hm0
                  · rw [he0, hfind] at hfind0
                    cases hfind0
                  · exact ⟨w0, hm0, hop0, hfind0⟩
                cases hA : st.andSeq with
                | none =>
                    rw [evalStep_found idx st w cw hand hor hf hfind, hA]
                    dsimp only
                    apply ih
                    · exact horig
                    · left
                      refine ⟨hf, ?_⟩
                      intro seg hseg
                      rw [hsegs] at hseg
                      rcases List.mem_cons.mp hseg with he | hm
                      · rw [he]
                        exact hhead
                      · exact hrest2 seg hm
                | some acc =>
                    rw [evalStep_found idx st w cw hand hor hf hfind, hA]
                    dsimp only
                    apply ih
                    · exact horig
                    · left
                      refine ⟨hf, ?_⟩
                      intro seg hseg
                      rw [hsegs] at hseg
                      rcases List.mem_cons.mp hseg with he | hm
                      · rw [he]
                        exact hhead
                      · exact hrest2 seg hm
            | none =>
                rw [evalStep_missing idx st w hand hor hf hfind]
                apply ih
                · exact horig
                · right
                  refine ⟨rfl, rfl, ?_⟩
                  intro seg hseg
                  rw [hsegs, List.tail_cons] at hseg
                  exact hrest2 seg hseg
        · rw [evalStep_skip idx st w hor ht]
          apply ih st horig
          right
          refine ⟨ht, han, ?_⟩
          intro seg hseg
          rw [hsegs, List.tail_cons] at hseg
          apply htail
          rw [hcons, List.tail_cons]
          exact hseg

/-- C8 counterexample: on a syntactically valid one-word query whose word
is not in the index, `queryEvaluate` returns NULL (`none`), not an empty
counters object, contradicting the claim that the result is always a valid
zero-entry DocCounts. -/
theorem empty_result_counterexample :
    queryEvaluate ["cat"] [("dog", [(1, 2)])] = none ∧
      queryEvaluate ["cat"] [("dog", [(1, 2)])] ≠ some [] := by
  constructor
  · rfl
  · intro h
    cases h

/-- C8 (amended): for every syntactically valid query in which no
AND-chain ever matched — every or-separated chain contains a word absent
from the index — `queryEvaluate` returns NULL (`none`): the OR accumulator
is only allocated when a chain is folded in, so the result is an absent
value rather than an empty counters object; callers treat the NULL result
as zero matches. -/
theorem empty_result_null (ws : List String) (idx : index_t)
    (hval : isValidQuerySyntax ws = true)
    (hchains : ∀ seg ∈ orSegments ws,
      ∃ w ∈ seg, isOp w = false ∧ index_find idx w = none) :
    queryEvaluate ws idx = none := by
  unfold queryEvaluate
  obtain ⟨ho, ha⟩ := chainsDead_fold idx ws ⟨none, none, false⟩ rfl
    (Or.inl ⟨rfl, hchains⟩)
  simp only []
  rw [ha, ho]
  rfl

/-- Witness for C8 (amended): `dog and cat` with `dog` indexed but `cat`
absent — the chain contains an indexed word yet never matches. -/
theorem empty_result_null_witness :
    isValidQuerySyntax ["dog", "and", "cat"] = true ∧
      queryEvaluate ["dog", "and", "cat"] [("dog", [(1, 2)])] = none :=
  ⟨by decide, empty_result_null ["dog", "and", "cat"] [("dog", [(1, 2)])]
    (by decide) (by decide)⟩

/-- Evolution of one AND-chain `b and c` from a state with no pending AND
sequence: the chain's outcome is independent of the accumulated OR
sequence, which passes through untouched. -/
theorem eval_bc (idx : index_t) (b c : String)
    (hb : ¬b = "and" ∧ ¬b = "or") (hc : ¬c = "and" ∧ ¬c = "or")
    (o : Option counters_t) :
    List.foldl (evalStep idx) ⟨none, o, false⟩ [b, "and", c] =
      match index_find idx b, index_find idx c with
      | some cb, some cc =>
          ⟨some (intersectCounters (copyCounters cb) cc), o, false⟩
      | some _, none => ⟨none, o, true⟩
      | none, _ => ⟨none, o, true⟩ := by
  rcases hfb : index_find idx b with _ | cb
  · have s1 : evalStep idx ⟨none, o, false⟩ b = ⟨none, o, true⟩ :=
      evalStep_missing idx _ b hb.1 hb.2 rfl hfb
    have s2 : evalStep idx ⟨none, o, true⟩ "and" = ⟨none, o, true⟩ :=
      evalStep_skip idx _ "and" (by decide) rfl
    have s3 : evalStep idx ⟨none, o, true⟩ c = ⟨none, o, true⟩ :=
      evalStep_skip idx _ c hc.2 rfl
    rw [List.foldl_cons, List.foldl_cons, List.foldl_cons, List.foldl_nil,
      s1, s2, s3]
  · have s1 : evalStep idx ⟨none, o, false⟩ b =
        ⟨some (copyCounters cb), o, false⟩ := by
      rw [evalStep_found idx _ b cb hb.1 hb.2 rfl hfb]
    have s2 : evalStep idx ⟨some (copyCounters cb), o, false⟩ "and" =
        ⟨some (copyCounters cb), o, false⟩ :=
      evalStep_and idx _ rfl
    rcases hfc : index_find idx c with _ | cc
    · have s3 : evalStep idx ⟨some (copyCounters cb), o, false⟩ c =
          ⟨none, o, true⟩ := by
        rw [evalStep_missing idx _ c hc.1 hc.2 rfl hfc]
      rw [List.foldl_cons, List.foldl_cons, List.foldl_cons, List.foldl_nil,
        s1, s2, s3]
    · have s3 : evalStep idx ⟨some (copyCounters cb), o, false⟩ c =
          ⟨some (intersectCounters (copyCounters cb) cc), o, false⟩ := by
        rw [evalStep_found idx _ c cc hc.1 hc.2 rfl hfc]
      rw [List.foldl_cons, List.foldl_cons, List.foldl_cons, List.foldl_nil,
        s1, s2, s3]

/-- C4: operator precedence.  For every index and all words `a`, `b`, `c`,
the query `a or b and c` evaluates to the sum-merge of the match set of
`a` alone with the result of `b and c` — AND binds tighter than OR —
observed pointwise through `get` on the result. -/
theorem operator_precedence (idx : index_t) (a b c : String)
    (hoa : isOp a = false) (hob : isOp b = false) (hoc : isOp c = false) :
    ∀ d, counters_getOpt (queryEvaluate [a, "or", b, "and", c] idx) d =
      counters_getOpt (queryEvaluate [a] idx) d +
        counters_getOpt (queryEvaluate [b, "and", c] idx) d := by
  intro d
  simp only [isOp, Bool.or_eq_false_iff, decide_eq_false_iff_not] at hoa hob hoc
  have hsplit : ∀ st : EvalState,
      List.foldl (evalStep idx) st [a, "or", b, "and", c] =
        List.foldl (evalStep idx) (evalStep idx (evalStep idx st a) "or")
          [b, "and", c] := by
    intro st
    rw [List.foldl_cons, List.foldl_cons]
  have hq2 : queryEvaluate [b, "and", c] idx =
      matchMerge (List.foldl (evalStep idx) ⟨none, none, false⟩ [b, "and", c]).andSeq
        (List.foldl (evalStep idx) ⟨none, none, false⟩ [b, "and", c]).orSeq := rfl
  rcases hfa : index_find idx a with _ | ca
  · -- a not indexed: the first chain contributes nothing
    have s1 : evalStep idx ⟨none, none, false⟩ a = ⟨none, none, true⟩ :=
      evalStep_missing idx _ a hoa.1 hoa.2 rfl hfa
    have s2 : evalStep idx ⟨none, none, true⟩ "or" = ⟨none, none, false⟩ := by
      rw [evalStep_or]
      rfl
    have hL : queryEvaluate [a, "or", b, "and", c] idx =
        matchMerge (List.foldl (evalStep idx) ⟨none, none, false⟩ [b, "and", c]).andSeq
          (List.foldl (evalStep idx) ⟨none, none, false⟩ [b, "and", c]).orSeq := by
      unfold queryEvaluate
      rw [hsplit, s1, s2]
    have hA : queryEvaluate [a] idx = none := by
      unfold queryEvaluate
      rw [List.foldl_cons, List.foldl_nil, s1]
      rfl
    rw [hL, hA, ← hq2, counters_getOpt_none]
    omega
  · have s1 : evalStep idx ⟨none, none, false⟩ a =
        ⟨some (copyCounters ca), none, false⟩ := by
      rw [evalStep_found idx _ a ca hoa.1 hoa.2 rfl hfa]
    have s2 : evalStep idx ⟨some (copyCounters ca), none, false⟩ "or" =
        ⟨none, some (unionCounters [] (copyCounters ca)), false⟩ := by
      rw [evalStep_or]
      rfl
    have hA : queryEvaluate [a] idx =
        some (unionCounters [] (copyCounters ca)) := by
      unfold queryEvaluate
      rw [List.foldl_cons, List.foldl_nil, s1]
      rfl
    have hndA : NoDupKeys (unionCounters [] (copyCounters ca)) :=
      nodup_addAll _ (by simp [NoDupKeys, ckeys])
    have hL0 : queryEvaluate [a, "or", b, "and", c] idx =
        matchMerge
          (List.foldl (evalStep idx)
            ⟨none, some (unionCounters [] (copyCounters ca)), false⟩
            [b, "and", c]).andSeq
          (List.foldl (evalStep idx)
            ⟨none, some (unionCounters [] (copyCounters ca)), false⟩
            [b, "and", c]).orSeq := by
      unfold queryEvaluate
      rw [hsplit, s1, s2]
    rw [hL0, hq2, hA, eval_bc idx b c hob hoc, eval_bc idx b c hob hoc]
    rcases hfb : index_find idx b with _ | cb
    · simp only [matchMerge_none, counters_getOpt_some, counters_getOpt_none]
      omega
    · rcases hfc : index_find idx c with _ | cc
      · simp only [matchMerge_none, counters_getOpt_some, counters_getOpt_none]
        omega
      · simp only [matchMerge_some, counters_getOpt_some, Option.getD_some,
          Option.getD_none]
        have hndX : NoDupKeys (intersectCounters (copyCounters cb) cc) :=
          nodup_intersect cc (nodup_copy cb)
        unfold unionCounters
        rw [counters_get_addAll _ hndX d, counters_get_addAll _ hndX d]
        have hz : counters_get ([] : counters_t) d = 0 := rfl
        rw [hz]
        omega

/-- Witness for C4 at a concrete index and words. -/
theorem operator_precedence_witness :
    counters_getOpt
        (queryEvaluate ["ant", "or", "bee", "and", "cow"]
          [("ant", [(1, 2)]), ("bee", [(1, 3), (2, 1)]), ("cow", [(2, 4)])]) 2 =
      counters_getOpt
          (queryEvaluate ["ant"]
            [("ant", [(1, 2)]), ("bee", [(1, 3), (2, 1)]), ("cow", [(2, 4)])]) 2 +
        counters_getOpt
          (queryEvaluate ["bee", "and", "cow"]
            [("ant", [(1, 2)]), ("bee", [(1, 3), (2, 1)]), ("cow", [(2, 4)])]) 2 :=
  operator_precedence
    [("ant", [(1, 2)]), ("bee", [(1, 3), (2, 1)]), ("cow", [(2, 4)])]
    "ant" "bee" "cow" (by decide) (by decide) (by decide) 2

/-! ### Decimal rendering and scanning lemmas (round trip support) -/

/-- Lowercase letter test: the character class of a normalized index
word. -/
def isLowerAlpha (ch : Char) : Bool := 'a' ≤ ch && ch ≤ 'z'

theorem natToCharsAux_eq : ∀ (n : Nat), ∀ (f : Nat) (acc : List Char),
    n < f → natToCharsAux f n acc = natToChars n ++ acc := by
  intro n
  induction n using Nat.strong_induction_on with
  | _ n ih =>
      intro f acc hf
      cases f with
      | zero => omega
      | succ f1 =>
          by_cases h10 : n < 10
          · unfold natToCharsAux
            rw [if_pos h10]
            unfold natToChars natToCharsAux
            rw [if_pos h10]
            rfl
          · have hdiv : n / 10 < n := Nat.div_lt_self (by omega) (by omega)
            unfold natToCharsAux
            rw [if_neg h10]
            rw [ih (n / 10) hdiv f1 _ (by omega)]
            have : natToChars n = natToChars (n / 10) ++ [digitChar (n % 10)] := by
              unfold natToChars
              conv =>
                lhs
                unfold natToCharsAux
              rw [if_neg h10]
              rw [ih (n / 10) hdiv n _ (by omega)]
              rfl
            rw [this, List.append_assoc]
            rfl

theorem natToChars_unfold (n : Nat) :
    natToChars n = if n < 10 then [digitChar (n % 10)]
      else natToChars (n / 10) ++ [digitChar (n % 10)] := by
  by_cases h10 : n < 10
  · rw [if_pos h10]
    unfold natToChars natToCharsAux
    rw [if_pos h10]
  · rw [if_neg h10]
    have hdiv : n / 10 < n := Nat.div_lt_self (by omega) (by omega)
    unfold natToChars
    conv =>
      lhs
      unfold natToCharsAux
    rw [if_neg h10]
    rw [natToCharsAux_eq (n / 10) n _ (by omega)]
    rfl

theorem isDigitC_digitChar (m : Nat) (hm : m < 10) :
    isDigitC (digitChar m) = true := by
  interval_cases m <;> decide

theorem digitVal_digitChar (m : Nat) (hm : m < 10) :
    digitVal (digitChar m) = m := by
  interval_cases m <;> decide

theorem natToChars_digits (n : Nat) :
    ∀ ch ∈ natToChars n, isDigitC ch = true := by
  induction n using Nat.strong_induction_on with
  | _ n ih =>
      intro ch hch
      rw [natToChars_unfold] at hch
      by_cases h10 : n < 10
      · rw [if_pos h10] at hch
        rcases List.mem_singleton.mp hch with rfl
        exact isDigitC_digitChar _ (Nat.mod_lt _ (by omega))
      · rw [if_neg h10] at hch
        rcases List.mem_append.mp hch with hm | hm
        · exact ih (n / 10) (Nat.div_lt_self (by omega) (by omega)) ch hm
        · rcases List.mem_singleton.mp hm with rfl
          exact isDigitC_digitChar _ (Nat.mod_lt _ (by omega))

theorem natToChars_ne_nil (n : Nat) : natToChars n ≠ [] := by
  rw [natToChars_unfold]
  by_cases h10 : n < 10
  · rw [if_pos h10]; simp
  · rw [if_neg h10]; simp

theorem digitsVal_append_single (ds : List Char) (c : Char) :
    digitsVal (ds ++ [c]) = 10 * digitsVal ds + digitVal c := by
  unfold digitsVal
  rw [List.foldl_append]
  rfl

theorem digitsVal_natToChars (n : Nat) : digitsVal (natToChars n) = n := by
  induction n using Nat.strong_induction_on with
  | _ n ih =>
      rw [natToChars_unfold]
      by_cases h10 : n < 10
      · rw [if_pos h10]
        show 10 * 0 + digitVal (digitChar (n % 10)) = n
        rw [digitVal_digitChar _ (Nat.mod_lt _ (by omega))]
        omega
      · rw [if_neg h10, digitsVal_append_single,
          ih (n / 10) (Nat.div_lt_self (by omega) (by omega)),
          digitVal_digitChar _ (Nat.mod_lt _ (by omega))]
        omega

theorem isSpaceC_cases {ch : Char} (h : isSpaceC ch = true) :
    ch = ' ' ∨ ch = '\t' ∨ ch = '\n' ∨ ch = '\x0b' ∨ ch = '\x0c' ∨ ch = '\x0d' := by
  unfold isSpaceC at h
  simp only [Bool.or_eq_true, decide_eq_true_eq] at h
  tauto

theorem not_space_of_digit {ch : Char} (h : isDigitC ch = true) :
    isSpaceC ch = false := by
  by_contra hne
  rw [Bool.not_eq_false] at hne
  rcases isSpaceC_cases hne with rfl | rfl | rfl | rfl | rfl | rfl <;>
    exact absurd h (by decide)

theorem digit_ne_minus {ch : Char} (h : isDigitC ch = true) : ch ≠ '-' := by
  intro he
  subst he
  exact absurd h (by decide)

theorem digit_ne_plus {ch : Char} (h : isDigitC ch = true) : ch ≠ '+' := by
  intro he
  subst he
  exact absurd h (by decide)

theorem not_space_of_lower {ch : Char} (h : isLowerAlpha ch = true) :
    isSpaceC ch = false := by
  by_contra hne
  rw [Bool.not_eq_false] at hne
  rcases isSpaceC_cases hne with rfl | rfl | rfl | rfl | rfl | rfl <;>
    exact absurd h (by decide)

theorem not_digit_of_lower {ch : Char} (h : isLowerAlpha ch = true) :
    isDigitC ch = false := by
  unfold isLowerAlpha at h
  rw [Bool.and_eq_true, decide_eq_true_eq, decide_eq_true_eq] at h
  by_contra hne
  rw [Bool.not_eq_false] at hne
  unfold isDigitC at hne
  rw [Bool.and_eq_true, decide_eq_true_eq, decide_eq_true_eq] at hne
  have : ('a' : Char) ≤ '9' := le_trans h.1 hne.2
  exact absurd this (by decide)

theorem lower_ne_minus {ch : Char} (h : isLowerAlpha ch = true) : ch ≠ '-' := by
  intro he
  subst he
  exact absurd h (by decide)

theorem lower_ne_plus {ch : Char} (h : isLowerAlpha ch = true) : ch ≠ '+' := by
  intro he
  subst he
  exact absurd h (by decide)

theorem dropWs_no_ws : ∀ (s : List Char),
    (∀ c r', s = c :: r' → isSpaceC c = false) → dropWs s = s := by
  intro s h
  cases s with
  | nil => rfl
  | cons c r =>
      unfold dropWs
      rw [h c r rfl]
      simp

theorem takeDigits_split : ∀ (ds r : List Char),
    (∀ c ∈ ds, isDigitC c = true) →
    (∀ c r', r = c :: r' → isDigitC c = false) →
    takeDigits (ds ++ r) = (ds, r) := by
  intro ds
  induction ds with
  | nil =>
      intro r _ hr
      cases r with
      | nil => rfl
      | cons c r' =>
          show takeDigits (c :: r') = ([], c :: r')
          unfold takeDigits
          rw [hr c r' rfl]
          simp
  | cons d ds' ih =>
      intro r hds hr
      show takeDigits (d :: (ds' ++ r)) = (d :: ds', r)
      have hd := hds d (List.mem_cons_self _ _)
      unfold takeDigits
      rw [hd]
      simp only [if_true]
      rw [ih r (fun c hc => hds c (List.mem_cons_of_mem _ hc)) hr]

theorem takeTok_split : ∀ (t r : List Char),
    (∀ c ∈ t, isSpaceC c = false) →
    (∀ c r', r = c :: r' → isSpaceC c = true) →
    takeTok (t ++ r) = (t, r) := by
  intro t
  induction t with
  | nil =>
      intro r _ hr
      cases r with
      | nil => rfl
      | cons c r' =>
          show takeTok (c :: r') = ([], c :: r')
          unfold takeTok
          rw [hr c r' rfl]
          simp
  | cons d t' ih =>
      intro r ht hr
      show takeTok (d :: (t' ++ r)) = (d :: t', r)
      have hd := ht d (List.mem_cons_self _ _)
      unfold takeTok
      rw [hd]
      simp only [Bool.false_eq_true, if_false]
      rw [ih r (fun c hc => ht c (List.mem_cons_of_mem _ hc)) hr]

/-- Behaviour of one `%d` conversion at a space followed by a rendered
non-negative integer: the integer is read back and the stream stops right
after its digits. -/
theorem scanInt_space_render (m : Int) (hm : 0 ≤ m) (rest : List Char)
    (hrest : ∀ c r', rest = c :: r' → isDigitC c = false) :
    scanInt (' ' :: (renderInt m ++ rest)) = (some m, rest) := by
  have hren : renderInt m = natToChars m.toNat := by
    unfold renderInt
    rw [if_neg (by omega)]
  obtain ⟨c0, t0, hct⟩ : ∃ c0 t0, natToChars m.toNat = c0 :: t0 := by
    cases hnc : natToChars m.toNat with
    | nil => exact absurd hnc (natToChars_ne_nil _)
    | cons a b => exact ⟨a, b, rfl⟩
  have hdigits : ∀ c ∈ natToChars m.toNat, isDigitC c = true :=
    natToChars_digits m.toNat
  have hc0 : isDigitC c0 = true := hdigits c0 (by rw [hct]; exact List.mem_cons_self _ _)
  have hdw : dropWs (' ' :: (renderInt m ++ rest)) = renderInt m ++ rest := by
    show (if isSpaceC ' ' = true then dropWs (renderInt m ++ rest) else _) = _
    rw [if_pos (by decide)]
    apply dropWs_no_ws
    intro c r' he
    rw [hren, hct] at he
    rw [List.cons_append] at he
    injection he with h1 _
    subst h1
    rw [not_space_of_digit hc0]
  unfold scanInt
  rw [hdw, hren, hct, List.cons_append]
  dsimp only
  rw [if_neg (digit_ne_minus hc0), if_neg (digit_ne_plus hc0)]
  have htd : takeDigits ((c0 :: t0) ++ rest) = (c0 :: t0, rest) := by
    apply takeDigits_split
    · intro c hc
      exact hdigits c (hct ▸ hc)
    · exact hrest
  rw [← List.cons_append, htd]
  dsimp only
  have hval : digitsVal (c0 :: t0) = m.toNat := by
    rw [← hct]
    exact digitsVal_natToChars m.toNat
  rw [hval]
  rw [Int.toNat_of_nonneg hm]

/-- Behaviour of one `%d` conversion when the whitespace-skipped stream is
empty or starts with a character that is neither a digit nor a sign: the
conversion fails, consuming only whitespace. -/
theorem scanInt_stop (tail : List Char)
    (h : ∀ c r', dropWs tail = c :: r' →
      isDigitC c = false ∧ c ≠ '-' ∧ c ≠ '+') :
    scanInt tail = (none, dropWs tail) := by
  unfold scanInt
  cases hdw : dropWs tail with
  | nil => rfl
  | cons ch r =>
      obtain ⟨hd, hm, hp⟩ := h ch r hdw
      dsimp only
      rw [if_neg hm, if_neg hp]
      have : takeDigits (ch :: r) = ([], ch :: r) := by
        unfold takeDigits
        rw [hd]
        simp
      rw [this]

/-- Behaviour of one `%s` conversion at a non-empty token followed by
whitespace (or end of stream): the token is read whole. -/
theorem scanString_word (c0 : Char) (t0 rest : List Char)
    (htok : ∀ c ∈ c0 :: t0, isSpaceC c = false)
    (hrest : ∀ c r', rest = c :: r' → isSpaceC c = true) :
    scanString ((c0 :: t0) ++ rest) = some (c0 :: t0, rest) := by
  unfold scanString
  have hdw : dropWs ((c0 :: t0) ++ rest) = (c0 :: t0) ++ rest := by
    apply dropWs_no_ws
    intro c r' he
    rw [List.cons_append] at he
    injection he with h1 _
    subst h1
    exact htok c0 (List.mem_cons_self _ _)
  rw [hdw, takeTok_split _ _ htok hrest]

/-- Accumulated effect of the `index_load` inner loop on the index: one
`index_set` per (docID, count) pair, in stream order. -/
def setPairs (idx : index_t) (w : String) (c : counters_t) : index_t :=
  c.foldl (fun i p => index_set i w p.1 p.2) idx

theorem saveCounts_cons (d n : Int) (rest : counters_t) :
    saveCounts ((d, n) :: rest) =
      ' ' :: (renderInt d ++ ' ' :: (renderInt n ++ saveCounts rest)) := rfl

theorem renderInt_ne_nil (i : Int) : renderInt i ≠ [] := by
  unfold renderInt
  by_cases h : i < 0
  · rw [if_pos h]; simp
  · rw [if_neg h]; exact natToChars_ne_nil _

theorem saveCounts_length_ge : ∀ c : counters_t,
    c.length ≤ (saveCounts c).length := by
  intro c
  induction c with
  | nil => simp [saveCounts]
  | cons p rest ih =>
      obtain ⟨d, n⟩ := p
      rw [saveCounts_cons]
      simp only [List.length_cons, List.length_append]
      omega

/-- Run of the `index_load` inner loop over one word's saved pairs: every
pair is installed via `index_set`, and the loop stops with the stream at
the whitespace-skipped tail (the next line's word, or end of input). -/
theorem pairsLoop_save : ∀ (c : counters_t) (fuel : Nat) (idx : index_t)
    (w : String) (tail : List Char), c.length < fuel →
    (∀ p ∈ c, 0 ≤ p.1 ∧ 0 ≤ p.2) →
    (∀ ch r', tail = ch :: r' → isDigitC ch = false) →
    (∀ ch r', dropWs tail = ch :: r' → isLowerAlpha ch = true) →
    pairsLoop fuel idx w (saveCounts c ++ tail) =
      (setPairs idx w c, dropWs tail) := by
  intro c
  induction c with
  | nil =>
      intro fuel idx w tail hfuel _ h1 h2
      cases fuel with
      | zero => omega
      | succ f =>
          show pairsLoop (f + 1) idx w tail = (idx, dropWs tail)
          have hstop : scanInt tail = (none, dropWs tail) := by
            apply scanInt_stop
            intro ch r' hch
            have hl := h2 ch r' hch
            exact ⟨not_digit_of_lower hl, lower_ne_minus hl, lower_ne_plus hl⟩
          unfold pairsLoop
          rw [hstop]
  | cons p c' ih =>
      intro fuel idx w tail hfuel hval h1 h2
      obtain ⟨dd, nn⟩ := p
      cases fuel with
      | zero => omega
      | succ f =>
          have hvdd := hval (dd, nn) (List.mem_cons_self _ _)
          have hs1 : saveCounts ((dd, nn) :: c') ++ tail =
              ' ' :: (renderInt dd ++
                (' ' :: (renderInt nn ++ (saveCounts c' ++ tail)))) := by
            rw [saveCounts_cons]
            simp [List.cons_append, List.append_assoc]
          have hnd2 : ∀ ch r', saveCounts c' ++ tail = ch :: r' →
              isDigitC ch = false := by
            intro ch r' hch
            cases c' with
            | nil =>
                rw [show saveCounts [] ++ tail = tail from rfl] at hch
                exact h1 ch r' hch
            | cons q c'' =>
                obtain ⟨d2, n2⟩ := q
                rw [saveCounts_cons, List.cons_append] at hch
                injection hch with hce _
                subst hce
                decide
          have hscan1 : scanInt (' ' :: (renderInt dd ++
              (' ' :: (renderInt nn ++ (saveCounts c' ++ tail))))) =
              (some dd, ' ' :: (renderInt nn ++ (saveCounts c' ++ tail))) := by
            apply scanInt_space_render dd hvdd.1
            intro ch r' hch
            injection hch with hce _
            subst hce
            decide
          have hscan2 : scanInt (' ' :: (renderInt nn ++ (saveCounts c' ++ tail))) =
              (some nn, saveCounts c' ++ tail) :=
            scanInt_space_render nn hvdd.2 _ hnd2
          show pairsLoop (f + 1) idx w (saveCounts ((dd, nn) :: c') ++ tail) = _
          unfold pairsLoop
          rw [hs1, hscan1]
          dsimp only
          rw [hscan2]
          dsimp only
          rw [ih f (index_set idx w dd nn) w tail (by simp at hfuel ⊢; omega)
            (fun q hq => hval q (List.mem_cons_of_mem _ hq)) h1 h2]
          rfl

/-- Well-formedness of one stored index line, as guaranteed for every
entry of an index built by `index_insert`: non-empty lowercase word,
non-empty counters with unique non-negative keys and non-negative
counts. -/
def LineOk (p : String × counters_t) : Prop :=
  p.1.toList ≠ [] ∧ (∀ ch ∈ p.1.toList, isLowerAlpha ch = true) ∧
    p.2 ≠ [] ∧ NoDupKeys p.2 ∧ ∀ q ∈ p.2, 0 ≤ q.1 ∧ 0 ≤ q.2

theorem index_save_cons (w : String) (c : counters_t) (L : index_t) :
    index_save ((w, c) :: L) = saveLine w c ++ index_save L := rfl

theorem index_save_head_lower : ∀ (L : index_t), (∀ p ∈ L, LineOk p) →
    ∀ ch r', index_save L = ch :: r' → isLowerAlpha ch = true := by
  intro L hok ch r' hch
  cases L with
  | nil => cases hch
  | cons p L' =>
      obtain ⟨w, c⟩ := p
      obtain ⟨hwne, hwlow, _, _, _⟩ := hok (w, c) (List.mem_cons_self _ _)
      obtain ⟨ch0, t0, hw⟩ : ∃ ch0 t0, w.toList = ch0 :: t0 := by
        cases hwl : w.toList with
        | nil => exact absurd hwl hwne
        | cons a b => exact ⟨a, b, rfl⟩
      rw [index_save_cons] at hch
      unfold saveLine at hch
      rw [hw] at hch
      rw [List.cons_append, List.cons_append] at hch
      injection hch with hce _
      subst hce
      refine hwlow _ ?_
      rw [hw]
      exact List.mem_cons_self _ _

theorem dropWs_index_save (L : index_t) (hok : ∀ p ∈ L, LineOk p) :
    dropWs (index_save L) = index_save L := by
  apply dropWs_no_ws
  intro c r' hc
  exact not_space_of_lower (index_save_head_lower L hok c r' hc)

/-- Run of the `index_load` outer loop over a saved well-formed index:
line by line, each word's pairs are installed via `index_set`. -/
theorem loadLoop_save : ∀ (L : index_t) (fuel : Nat) (idx0 : index_t),
    L.length < fuel → (∀ p ∈ L, LineOk p) →
    loadLoop fuel idx0 (index_save L) =
      L.foldl (fun i p => setPairs i p.1 p.2) idx0 := by
  intro L
  induction L with
  | nil =>
      intro fuel idx0 hfuel _
      cases fuel with
      | zero => omega
      | succ f =>
          show loadLoop (f + 1) idx0 [] = idx0
          unfold loadLoop
          have hnone : scanString ([] : List Char) = none := rfl
          rw [hnone]
  | cons p L' ih =>
      intro fuel idx0 hfuel hok
      obtain ⟨w, c⟩ := p
      obtain ⟨hwne, hwlow, hcne, hcnd, hcval⟩ := hok (w, c) (List.mem_cons_self _ _)
      have hok' : ∀ q ∈ L', LineOk q := fun q hq => hok q (List.mem_cons_of_mem _ hq)
      obtain ⟨ch0, t0, hw⟩ : ∃ ch0 t0, w.toList = ch0 :: t0 := by
        cases hwl : w.toList with
        | nil => exact absurd hwl hwne
        | cons a b => exact ⟨a, b, rfl⟩
      cases fuel with
      | zero => omega
      | succ f =>
          have hstream : index_save ((w, c) :: L') =
              (ch0 :: t0) ++ (saveCounts c ++ ('\n' :: index_save L')) := by
            rw [index_save_cons]
            unfold saveLine
            rw [hw]
            simp [List.cons_append, List.append_assoc]
          have hscan : scanString ((ch0 :: t0) ++
              (saveCounts c ++ ('\n' :: index_save L'))) =
              some (ch0 :: t0, saveCounts c ++ ('\n' :: index_save L')) := by
            apply scanString_word
            · intro cch hcch
              exact not_space_of_lower (hwlow cch (hw ▸ hcch))
            · intro cch r' hch
              cases c with
              | nil => exact absurd rfl hcne
              | cons q c'' =>
                  obtain ⟨d2, n2⟩ := q
                  rw [saveCounts_cons, List.cons_append] at hch
                  injection hch with hce _
                  subst hce
                  decide
          have htail1 : ∀ ch r', ('\n' :: index_save L') = ch :: r' →
              isDigitC ch = false := by
            intro ch r' hch
            injection hch with hce _
            subst hce
            decide
          have hdtail : dropWs ('\n' :: index_save L') = index_save L' := by
            show (if isSpaceC '\n' = true then dropWs (index_save L') else _) = _
            rw [if_pos (by decide)]
            exact dropWs_index_save L' hok'
          have htail2 : ∀ ch r', dropWs ('\n' :: index_save L') = ch :: r' →
              isLowerAlpha ch = true := by
            intro ch r' hch
            rw [hdtail] at hch
            exact index_save_head_lower L' hok' ch r' hch
          have hplfuel : c.length <
              (saveCounts c ++ ('\n' :: index_save L')).length + 1 := by
            have := saveCounts_length_ge c
            simp only [List.length_append]
            omega
          have hpl := pairsLoop_save c
            ((saveCounts c ++ ('\n' :: index_save L')).length + 1) idx0 w
            ('\n' :: index_save L') hplfuel hcval htail1 htail2
          have hsm : String.mk (ch0 :: t0) = w := by
            rw [← hw]
            rfl
          show loadLoop (f + 1) idx0 (index_save ((w, c) :: L')) = _
          unfold loadLoop
          rw [hstream, hscan]
          dsimp only
          rw [hsm, hpl]
          dsimp only
          rw [hdtail]
          rw [ih f (setPairs idx0 w c) (by simp at hfuel ⊢; omega) hok']
          rfl

/-- Words stored in an index, in iteration order. -/
def ikeys (idx : index_t) : List String := idx.map Prod.fst

theorem ikeys_append_single (idx : index_t) (w : String) (c : counters_t) :
    ikeys (idx ++ [(w, c)]) = ikeys idx ++ [w] := by
  simp [ikeys]

theorem index_find_none_iff : ∀ (idx : index_t) (w : String),
    index_find idx w = none ↔ w ∉ ikeys idx := by
  intro idx w
  induction idx with
  | nil => simp [index_find, ikeys]
  | cons p rest ih =>
      obtain ⟨w', c'⟩ := p
      show (if w' = w then some c' else index_find rest w) = none ↔ _
      by_cases hw : w' = w
      · rw [if_pos hw]
        simp [ikeys, hw]
      · rw [if_neg hw]
        simp only [ikeys, List.map_cons, List.mem_cons, not_or]
        rw [ih]
        simp only [ikeys]
        constructor
        · intro h
          exact ⟨fun he => hw he.symm, h⟩
        · intro h
          exact h.2

theorem index_find_some_mem : ∀ {idx : index_t} {w : String} {c : counters_t},
    index_find idx w = some c → (w, c) ∈ idx := by
  intro idx
  induction idx with
  | nil => intro w c h; cases h
  | cons p rest ih =>
      intro w c h
      obtain ⟨w', c'⟩ := p
      rw [show index_find ((w', c') :: rest) w =
        (if w' = w then some c' else index_find rest w) from rfl] at h
      by_cases hw : w' = w
      · rw [if_pos hw] at h
        injection h with hc
        subst hw
        subst hc
        exact List.mem_cons_self _ _
      · rw [if_neg hw] at h
        exact List.mem_cons_of_mem _ (ih h)

theorem index_find_append_of_not_mem {idx : index_t} {w : String}
    (c : counters_t) (h : w ∉ ikeys idx) :
    index_find (idx ++ [(w, c)]) w = some c := by
  induction idx with
  | nil => simp [index_find]
  | cons p rest ih =>
      obtain ⟨w', c'⟩ := p
      simp only [ikeys, List.map_cons, List.mem_cons, not_or] at h
      rw [List.cons_append]
      show (if w' = w then some c' else index_find (rest ++ [(w, c)]) w) = some c
      rw [if_neg (fun he => h.1 he.symm)]
      exact ih h.2

theorem index_update_append_of_not_mem {idx : index_t} {w : String}
    (c : counters_t) (f : counters_t → counters_t) (h : w ∉ ikeys idx) :
    index_update (idx ++ [(w, c)]) w f = idx ++ [(w, f c)] := by
  induction idx with
  | nil =>
      show (if w = w then (w, f c) :: [] else _) = [(w, f c)]
      rw [if_pos rfl]
  | cons p rest ih =>
      obtain ⟨w', c'⟩ := p
      simp only [ikeys, List.map_cons, List.mem_cons, not_or] at h
      rw [List.cons_append]
      show (if w' = w then (w', f c') :: (rest ++ [(w, c)])
        else (w', c') :: index_update (rest ++ [(w, c)]) w f) = _
      rw [if_neg (fun he => h.1 he.symm), ih h.2]
      rfl

theorem counters_set_absent {cc : counters_t} {k : Int} (v : Int)
    (h : k ∉ ckeys cc) : counters_set cc k v = cc ++ [(k, v)] := by
  induction cc with
  | nil => rfl
  | cons p rest ih =>
      obtain ⟨a, b⟩ := p
      simp only [ckeys, List.map_cons, List.mem_cons, not_or] at h
      rw [counters_set_cons, if_neg (fun he => h.1 he.symm)]
      rw [ih h.2]
      rfl

/-- Accumulated `counters_set` installs of fresh keys append in order. -/
theorem csetAll_append : ∀ (c cc : counters_t), NoDupKeys c →
    (∀ k ∈ ckeys c, k ∉ ckeys cc) →
    c.foldl (fun acc p => counters_set acc p.1 p.2) cc = cc ++ c := by
  intro c
  induction c with
  | nil => intro cc _ _; simp
  | cons p c' ih =>
      intro cc hnd hdisj
      obtain ⟨d, n⟩ := p
      simp only [NoDupKeys, ckeys_cons, List.nodup_cons] at hnd
      rw [List.foldl_cons]
      have hset : counters_set cc d n = cc ++ [(d, n)] :=
        counters_set_absent n (hdisj d (List.mem_cons_self _ _))
      rw [hset, ih (cc ++ [(d, n)]) hnd.2 ?hdisj2, List.append_assoc]
      · rfl
      case hdisj2 =>
        intro k hk
        have hk1 : k ∉ ckeys cc :=
          hdisj k (List.mem_cons_of_mem _ hk)
        have hk2 : k ≠ d := by
          intro he
          subst he
          exact hnd.1 hk
        simp only [ckeys, List.map_append, List.mem_append, not_or]
        exact ⟨hk1, by simpa [ckeys] using hk2⟩

theorem index_set_guard_pass {idx : index_t} {w : String} {d n : Int}
    (hd : 0 ≤ d) (hn : 0 ≤ n) :
    index_set idx w d n =
      match index_find idx w with
      | some _ => index_update idx w (fun c => counters_set c d n)
      | none => idx ++ [(w, counters_set [] d n)] := by
  unfold index_set
  rw [if_neg (by simp only [Bool.or_eq_true, decide_eq_true_eq]; omega)]

theorem index_set_append_last {idx : index_t} {w : String}
    (cc : counters_t) {d n : Int} (h : w ∉ ikeys idx)
    (hd : 0 ≤ d) (hn : 0 ≤ n) :
    index_set (idx ++ [(w, cc)]) w d n = idx ++ [(w, counters_set cc d n)] := by
  rw [index_set_guard_pass hd hn, index_find_append_of_not_mem cc h]
  exact index_update_append_of_not_mem cc _ h

theorem setPairs_append_last : ∀ (c : counters_t) (idx : index_t) (w : String)
    (cc : counters_t), w ∉ ikeys idx → (∀ p ∈ c, 0 ≤ p.1 ∧ 0 ≤ p.2) →
    setPairs (idx ++ [(w, cc)]) w c =
      idx ++ [(w, c.foldl (fun acc p => counters_set acc p.1 p.2) cc)] := by
  intro c
  induction c with
  | nil => intro idx w cc _ _; rfl
  | cons p c' ih =>
      intro idx w cc hw hval
      obtain ⟨d, n⟩ := p
      have hv := hval (d, n) (List.mem_cons_self _ _)
      show setPairs (index_set (idx ++ [(w, cc)]) w d n) w c' = _
      rw [index_set_append_last cc hw hv.1 hv.2]
      rw [ih idx w (counters_set cc d n) hw
        (fun q hq => hval q (List.mem_cons_of_mem _ hq))]
      rfl

/-- Loading one word's valid pairs into an index where the word is fresh
appends exactly the original counters. -/
theorem setPairs_new (c : counters_t) (idx : index_t) (w : String)
    (hw : w ∉ ikeys idx) (hne : c ≠ []) (hnd : NoDupKeys c)
    (hval : ∀ p ∈ c, 0 ≤ p.1 ∧ 0 ≤ p.2) :
    setPairs idx w c = idx ++ [(w, c)] := by
  cases c with
  | nil => exact absurd rfl hne
  | cons p c' =>
      obtain ⟨d, n⟩ := p
      have hv := hval (d, n) (List.mem_cons_self _ _)
      simp only [NoDupKeys, ckeys_cons, List.nodup_cons] at hnd
      show setPairs (index_set idx w d n) w c' = _
      have hfirst : index_set idx w d n = idx ++ [(w, [(d, n)])] := by
        rw [index_set_guard_pass hv.1 hv.2, (index_find_none_iff idx w).mpr hw]
        rfl
      rw [hfirst, setPairs_append_last c' idx w [(d, n)] hw
        (fun q hq => hval q (List.mem_cons_of_mem _ hq))]
      rw [csetAll_append c' [(d, n)] hnd.2]
      · rfl
      · intro k hk
        simp only [ckeys, List.map_cons, List.map_nil, List.mem_singleton]
        intro he
        subst he
        exact hnd.1 hk

/-- Loading a saved well-formed index line by line reconstructs it
exactly. -/
theorem foldSetLines_eq : ∀ (L idx0 : index_t), (ikeys L).Nodup →
    (∀ w ∈ ikeys L, w ∉ ikeys idx0) → (∀ p ∈ L, LineOk p) →
    L.foldl (fun i p => setPairs i p.1 p.2) idx0 = idx0 ++ L := by
  intro L
  induction L with
  | nil => intro idx0 _ _ _; simp
  | cons p L' ih =>
      intro idx0 hnd hdisj hok
      obtain ⟨w, c⟩ := p
      obtain ⟨_, _, hcne, hcnd, hcval⟩ := hok (w, c) (List.mem_cons_self _ _)
      simp only [ikeys, List.map_cons, List.nodup_cons] at hnd
      rw [List.foldl_cons]
      have hw0 : w ∉ ikeys idx0 := hdisj w (by
        rw [show ikeys ((w, c) :: L') = w :: ikeys L' from rfl]
        exact List.mem_cons_self _ _)
      rw [setPairs_new c idx0 w hw0 hcne hcnd hcval]
      rw [ih (idx0 ++ [(w, c)]) hnd.2 ?disj
        (fun q hq => hok q (List.mem_cons_of_mem _ hq))]
      · rw [List.append_assoc]
        rfl
      case disj =>
        intro w' hw'
        rw [ikeys_append_single]
        simp only [List.mem_append, List.mem_singleton, not_or]
        refine ⟨hdisj w' (by
          rw [show ikeys ((w, c) :: L') = w :: ikeys L' from rfl]
          exact List.mem_cons_of_mem _ hw'), ?_⟩
        · intro he
          subst he
          exact hnd.1 hw'

/-! ### Well-formedness of an index built by index_insert -/

/-- Normalized index word: non-empty, lowercase alphabetic, and short
enough for the 256-byte word buffer of `index_load`. -/
def ValidWord (w : String) : Prop :=
  w.toList ≠ [] ∧ w.toList.length < 256 ∧ ∀ ch ∈ w.toList, isLowerAlpha ch = true

/-- Index construction: an arbitrary sequence of `index_insert(word,
docID)` calls starting from an empty index (the indexing pipeline of
indexer.c). -/
def buildIndex (ops : List (String × Int)) : index_t :=
  ops.foldl (fun i p => index_insert i p.1 p.2) []

theorem counters_add_ne_nil (c : counters_t) (k : Int) :
    counters_add c k ≠ [] := by
  cases c with
  | nil => simp [counters_add]
  | cons p rest =>
      obtain ⟨a, b⟩ := p
      show (if a = k then (a, b + 1) :: rest else (a, b) :: counters_add rest k) ≠ []
      by_cases h : a = k
      · rw [if_pos h]; simp
      · rw [if_neg h]; simp

theorem mem_ckeys_add : ∀ (c : counters_t) (k k' : Int),
    k' ∈ ckeys (counters_add c k) ↔ k' ∈ ckeys c ∨ k' = k := by
  intro c k
  induction c with
  | nil => intro k'; simp [counters_add, ckeys, eq_comm]
  | cons p rest ih =>
      intro k'
      obtain ⟨a, b⟩ := p
      show k' ∈ ckeys (if a = k then (a, b + 1) :: rest else (a, b) :: counters_add rest k) ↔ _
      by_cases hp : a = k
      · subst hp
        simp only [eq_self_iff_true, if_true, ckeys_cons, List.mem_cons]
        tauto
      · simp only [if_neg hp, ckeys_cons, List.mem_cons, ih k']
        tauto

theorem nodup_add (k : Int) : ∀ {c : counters_t},
    NoDupKeys c → NoDupKeys (counters_add c k) := by
  intro c
  induction c with
  | nil => intro _; simp [NoDupKeys, counters_add, ckeys]
  | cons p rest ih =>
      intro h
      obtain ⟨a, b⟩ := p
      simp only [NoDupKeys, ckeys_cons, List.nodup_cons] at h
      show NoDupKeys (if a = k then (a, b + 1) :: rest else (a, b) :: counters_add rest k)
      by_cases hp : a = k
      · rw [if_pos hp]
        simp only [NoDupKeys, ckeys_cons, List.nodup_cons]
        exact h
      · rw [if_neg hp]
        simp only [NoDupKeys, ckeys_cons, List.nodup_cons]
        refine ⟨fun hc => ?_, ih h.2⟩
        rcases (mem_ckeys_add rest k a).mp hc with hm | hm
        · exact h.1 hm
        · exact hp hm

theorem values_add {c : counters_t} {k : Int}
    (hc : ∀ q ∈ c, 0 ≤ q.1 ∧ 0 ≤ q.2) (hk : 0 ≤ k) :
    ∀ q ∈ counters_add c k, 0 ≤ q.1 ∧ 0 ≤ q.2 := by
  induction c with
  | nil =>
      intro q hq
      rcases List.mem_singleton.mp hq with rfl
      exact ⟨hk, by omega⟩
  | cons p rest ih =>
      obtain ⟨a, b⟩ := p
      intro q hq
      rw [show counters_add ((a, b) :: rest) k =
        (if a = k then (a, b + 1) :: rest else (a, b) :: counters_add rest k) from rfl] at hq
      by_cases hp : a = k
      · rw [if_pos hp] at hq
        rcases List.mem_cons.mp hq with rfl | hm
        · have := hc (a, b) (List.mem_cons_self _ _)
          exact ⟨this.1, by have := this.2; omega⟩
        · exact hc q (List.mem_cons_of_mem _ hm)
      · rw [if_neg hp] at hq
        rcases List.mem_cons.mp hq with rfl | hm
        · exact hc (a, b) (List.mem_cons_self _ _)
        · exact ih (fun r hr => hc r (List.mem_cons_of_mem _ hr)) q hm

theorem ikeys_update (idx : index_t) (w : String) (f : counters_t → counters_t) :
    ikeys (index_update idx w f) = ikeys idx := by
  induction idx with
  | nil => rfl
  | cons p rest ih =>
      obtain ⟨w', c'⟩ := p
      show ikeys (if w' = w then (w', f c') :: rest else (w', c') :: index_update rest w f) = _
      by_cases hw : w' = w
      · rw [if_pos hw]
        rfl
      · rw [if_neg hw]
        show w' :: ikeys (index_update rest w f) = w' :: ikeys rest
        rw [ih]

theorem mem_update : ∀ {idx : index_t} {w : String}
    {f : counters_t → counters_t} {p : String × counters_t},
    p ∈ index_update idx w f →
    p ∈ idx ∨ ∃ cc, (w, cc) ∈ idx ∧ p = (w, f cc) := by
  intro idx
  induction idx with
  | nil => intro w f p hp; cases hp
  | cons q rest ih =>
      intro w f p hp
      obtain ⟨w', c'⟩ := q
      rw [show index_update ((w', c') :: rest) w f =
        (if w' = w then (w', f c') :: rest
         else (w', c') :: index_update rest w f) from rfl] at hp
      by_cases hw : w' = w
      · rw [if_pos hw] at hp
        subst hw
        rcases List.mem_cons.mp hp with rfl | hm
        · exact Or.inr ⟨c', List.mem_cons_self _ _, rfl⟩
        · exact Or.inl (List.mem_cons_of_mem _ hm)
      · rw [if_neg hw] at hp
        rcases List.mem_cons.mp hp with rfl | hm
        · exact Or.inl (List.mem_cons_self _ _)
        · rcases ih hm with hin | ⟨cc, hcc, he⟩
          · exact Or.inl (List.mem_cons_of_mem _ hin)
          · exact Or.inr ⟨cc, List.mem_cons_of_mem _ hcc, he⟩

/-- One `index_insert` preserves the structural invariants of the index
when the inserted word is a normalized word. -/
theorem insert_preserves {idx : index_t} {w : String} {d : Int}
    (hnd : (ikeys idx).Nodup) (hok : ∀ p ∈ idx, LineOk p) (hw : ValidWord w) :
    (ikeys (index_insert idx w d)).Nodup ∧
      ∀ p ∈ index_insert idx w d, LineOk p := by
  unfold index_insert
  by_cases hneg : d < 0
  · rw [if_pos hneg]
    exact ⟨hnd, hok⟩
  · rw [if_neg hneg]
    cases hfind : index_find idx w with
    | some cc =>
        constructor
        · rw [ikeys_update]
          exact hnd
        · intro p hp
          rcases mem_update hp with hin | ⟨cc', hcc', rfl⟩
          · exact hok p hin
          · obtain ⟨hwne, hwlow, _, hcnd, hcval⟩ := hok (w, cc') hcc'
            exact ⟨hwne, hwlow, counters_add_ne_nil _ _, nodup_add d hcnd,
              values_add hcval (by omega)⟩
    | none =>
        constructor
        · rw [ikeys_append_single]
          rw [List.nodup_append]
          refine ⟨hnd, List.nodup_singleton w, ?_⟩
          intro a ha hb
          rcases List.mem_singleton.mp hb with rfl
          exact (index_find_none_iff idx a).mp hfind ha
        · intro p hp
          rcases List.mem_append.mp hp with hin | hnew
          · exact hok p hin
          · rcases List.mem_singleton.mp hnew with rfl
            refine ⟨hw.1, hw.2.2, ?_, ?_, ?_⟩
            · show (counters_add [] d) ≠ []
              exact counters_add_ne_nil _ _
            · show NoDupKeys (counters_add [] d)
              simp [counters_add, NoDupKeys, ckeys]
            · show ∀ q ∈ counters_add [] d, 0 ≤ q.1 ∧ 0 ≤ q.2
              intro q hq
              rcases List.mem_singleton.mp hq with rfl
              exact ⟨by omega, by omega⟩

theorem buildIndex_aux : ∀ (ops : List (String × Int)) (idx : index_t),
    (ikeys idx).Nodup → (∀ p ∈ idx, LineOk p) →
    (∀ p ∈ ops, ValidWord p.1) →
    (ikeys (ops.foldl (fun i p => index_insert i p.1 p.2) idx)).Nodup ∧
      ∀ p ∈ ops.foldl (fun i p => index_insert i p.1 p.2) idx, LineOk p := by
  intro ops
  induction ops with
  | nil => intro idx hnd hok _; exact ⟨hnd, hok⟩
  | cons q ops' ih =>
      intro idx hnd hok hw
      rw [List.foldl_cons]
      obtain ⟨hnd', hok'⟩ := insert_preserves hnd hok (hw q (List.mem_cons_self _ _))
      exact ih _ hnd' hok' (fun r hr => hw r (List.mem_cons_of_mem _ hr))

theorem buildIndex_wf (ops : List (String × Int))
    (hw : ∀ p ∈ ops, ValidWord p.1) :
    (ikeys (buildIndex ops)).Nodup ∧ ∀ p ∈ buildIndex ops, LineOk p :=
  buildIndex_aux ops [] (by simp [ikeys]) (by intro p hp; cases hp) hw

theorem index_save_length_ge : ∀ L : index_t, L.length ≤ (index_save L).length := by
  intro L
  induction L with
  | nil => simp [index_save]
  | cons p rest ih =>
      obtain ⟨w, c⟩ := p
      rw [index_save_cons]
      unfold saveLine
      simp only [List.length_cons, List.length_append, List.length_singleton]
      omega

/-- C1: round trip of persistence.  For every index built by an arbitrary
sequence of `index_insert(word, docID)` calls — the words being normalized
(non-empty lowercase, short enough for the 256-byte load buffer) —
restoring the output of `index_save` with `index_load` yields an index in
which `find(w).get(d)` equals the original count for every word `w` and
document `d`; the load installs every persisted triple via `index_set`, so
the persisted value is authoritative.  (In this model the reloaded index
is in fact identical to the original.) -/
theorem persist_restore_roundTrip (ops : List (String × Int))
    (hops : ∀ p ∈ ops, ValidWord p.1) :
    index_load (index_save (buildIndex ops)) = buildIndex ops ∧
    ∀ (w : String) (d : Int),
      counters_getOpt (index_find (index_load (index_save (buildIndex ops))) w) d =
        counters_getOpt (index_find (buildIndex ops) w) d := by
  obtain ⟨hnd, hok⟩ := buildIndex_wf ops hops
  have hload : index_load (index_save (buildIndex ops)) = buildIndex ops := by
    unfold index_load
    rw [loadLoop_save (buildIndex ops) _ []
      (by have := index_save_length_ge (buildIndex ops); omega) hok]
    rw [foldSetLines_eq (buildIndex ops) [] hnd
      (by intro w _; simp [ikeys]) hok]
    simp
  exact ⟨hload, fun w d => by rw [hload]⟩

/-- Witness for C1 at a concrete insertion sequence. -/
theorem persist_restore_roundTrip_witness :
    index_load (index_save (buildIndex [("dog", 1), ("cat", 2), ("dog", 1)])) =
        buildIndex [("dog", 1), ("cat", 2), ("dog", 1)]
      ∧ counters_getOpt
          (index_find
            (index_load (index_save (buildIndex [("dog", 1), ("cat", 2), ("dog", 1)])))
            "dog") 1 =
        counters_getOpt (index_find (buildIndex [("dog", 1), ("cat", 2), ("dog", 1)]) "dog") 1 := by
  have h := persist_restore_roundTrip [("dog", 1), ("cat", 2), ("dog", 1)]
    (by
      intro p hp
      unfold ValidWord
      rcases List.mem_cons.mp hp with rfl | hp
      · refine ⟨by decide, by decide, by decide⟩
      rcases List.mem_cons.mp hp with rfl | hp
      · refine ⟨by decide, by decide, by decide⟩
      rcases List.mem_cons.mp hp with rfl | hp
      · refine ⟨by decide, by decide, by decide⟩
      · cases hp)
  exact ⟨h.1, h.2 "dog" 1⟩

/-! ### Heap model of query evaluation (querier.c), for the frame property

The pure model above cannot express "evaluation never mutates the stored
index", so the evaluator is embedded a second time over an explicit heap
of counters objects: the index maps words to handles, `counters_new`
allocates a fresh handle, the iterate/callback mutations write through a
handle, and `counters_delete` removes a binding.  The combinators on the
stored values reuse the pure models already shown to embed the callbacks.
-/

/-- Heap of live counters objects (handle → value) together with the next
fresh handle. -/
structure Store where
  heap : List (Nat × counters_t)
  next : Nat
deriving Repr, DecidableEq

/-- Dereferencing a handle. -/
def hlookup : List (Nat × counters_t) → Nat → Option counters_t
  | [], _ => none
  | (k, v) :: rest, h => if k = h then some v else hlookup rest h

/-- Reading a counters object through its handle. -/
def sread (σ : Store) (h : Nat) : Option counters_t := hlookup σ.heap h

/-- In-place mutation of the counters object behind a handle. -/
def swrite (σ : Store) (h : Nat) (c : counters_t) : Store :=
  ⟨σ.heap.map (fun p => if p.1 = h then (h, c) else p), σ.next⟩

/-- Model of `counters_new`: a fresh handle bound to an empty object. -/
def salloc (σ : Store) : Nat × Store :=
  (σ.next, ⟨σ.heap ++ [(σ.next, [])], σ.next + 1⟩)

/-- Model of `counters_delete`: the binding disappears. -/
def sfree (σ : Store) (h : Nat) : Store :=
  ⟨σ.heap.filter (fun p => !(p.1 == h)), σ.next⟩

/-- Index over handles: each word owns the counters object behind its
handle. -/
abbrev index_s := List (String × Nat)

/-- Embedding of `index_find` over the handle-based index. -/
def sfind : index_s → String → Option Nat
  | [], _ => none
  | (w, h) :: rest, word => if w = word then some h else sfind rest word

/-- Evaluation state of `queryEvaluate` over handles. -/
structure EvalStateS where
  andH : Option Nat
  orH : Option Nat
  invalid : Bool
deriving Repr, DecidableEq

/-- Embedding of `matchMerge` (querier.c) over the heap: allocate the OR
sequence if NULL, sum-merge the AND sequence into it, free the AND
sequence. -/
def matchMergeS (andH orH : Option Nat) (σ : Store) : Option Nat × Store :=
  match andH with
  | none => (orH, σ)
  | some a =>
      match orH with
      | none =>
          match salloc σ with
          | (o, σ1) =>
              (some o, sfree (swrite σ1 o
                (unionCounters ((sread σ1 o).getD []) ((sread σ1 a).getD []))) a)
      | some o =>
          (some o, sfree (swrite σ o
            (unionCounters ((sread σ o).getD []) ((sread σ a).getD []))) a)

/-- Embedding of one iteration of the `queryEvaluate` token loop
(querier.c) over the heap. -/
def evalStepS (idxS : index_s) (st : EvalStateS) (σ : Store) (w : String) :
    EvalStateS × Store :=
  if w = "or" then
    match matchMergeS st.andH st.orH σ with
    | (o, σ1) => (⟨none, o, false⟩, σ1)
  else if st.invalid then (st, σ)
  else if w = "and" then (st, σ)
  else
    match sfind idxS w with
    | none =>
        match st.andH with
        | some a => (⟨none, st.orH, true⟩, sfree σ a)
        | none => (⟨none, st.orH, true⟩, σ)
    | some wh =>
        match st.andH with
        | none =>
            match salloc σ with
            | (a, σ1) =>
                (⟨some a, st.orH, st.invalid⟩,
                  swrite σ1 a (addAllCounts ((sread σ1 a).getD [])
                    ((sread σ1 wh).getD [])))
        | some a =>
            (⟨some a, st.orH, st.invalid⟩,
              swrite σ a (intersectCounters ((sread σ a).getD [])
                ((sread σ wh).getD [])))

/-- Embedding of `queryEvaluate` (querier.c) over the heap. -/
def queryEvaluateS (ws : List String) (idxS : index_s) (σ : Store) :
    Option Nat × Store :=
  match ws.foldl (fun p w => evalStepS idxS p.1 p.2 w) (⟨none, none, false⟩, σ) with
  | (st, σ1) => matchMergeS st.andH st.orH σ1

theorem hlookup_write_ne : ∀ (heap : List (Nat × counters_t)) {h : Nat}
    (c : counters_t) {h' : Nat}, h' ≠ h →
    hlookup (heap.map (fun p => if p.1 = h then (h, c) else p)) h' =
      hlookup heap h' := by
  intro heap h c h' hne
  induction heap with
  | nil => rfl
  | cons p rest ih =>
      obtain ⟨k, v⟩ := p
      rw [List.map_cons]
      dsimp only
      by_cases hk : k = h
      · subst hk
        rw [if_pos rfl]
        show (if k = h' then some c else _) = (if k = h' then some v else _)
        rw [if_neg (fun he => hne he.symm), if_neg (fun he => hne he.symm)]
        exact ih
      · rw [if_neg hk]
        show (if k = h' then some v else _) = (if k = h' then some v else _)
        by_cases hk' : k = h'
        · rw [if_pos hk', if_pos hk']
        · rw [if_neg hk', if_neg hk']
          exact ih

theorem sread_swrite_ne (σ : Store) (h : Nat) (c : counters_t) {h' : Nat}
    (hne : h' ≠ h) : sread (swrite σ h c) h' = sread σ h' :=
  hlookup_write_ne σ.heap c hne

theorem hlookup_free_ne : ∀ (heap : List (Nat × counters_t)) {h h' : Nat},
    h' ≠ h →
    hlookup (heap.filter (fun p => !(p.1 == h))) h' = hlookup heap h' := by
  intro heap h h' hne
  induction heap with
  | nil => rfl
  | cons p rest ih =>
      obtain ⟨k, v⟩ := p
      rw [List.filter_cons]
      by_cases hk : k = h
      · subst hk
        rw [show (!((k, v).1 == k)) = false from by simp]
        simp only [Bool.false_eq_true, if_false]
        rw [ih]
        show _ = (if k = h' then some v else hlookup rest h')
        rw [if_neg (fun he => hne he.symm)]
      · rw [show (!((k, v).1 == h)) = true from by simp [hk]]
        simp only [if_true]
        show (if k = h' then some v else _) = (if k = h' then some v else _)
        by_cases hk' : k = h'
        · rw [if_pos hk', if_pos hk']
        · rw [if_neg hk', if_neg hk']
          exact ih

theorem sread_sfree_ne (σ : Store) (h : Nat) {h' : Nat}
    (hne : h' ≠ h) : sread (sfree σ h) h' = sread σ h' :=
  hlookup_free_ne σ.heap hne

theorem hlookup_append_ne : ∀ (heap : List (Nat × counters_t)) {n h' : Nat},
    h' ≠ n → hlookup (heap ++ [(n, [])]) h' = hlookup heap h' := by
  intro heap n h' hne
  induction heap with
  | nil =>
      show (if n = h' then some [] else none) = none
      rw [if_neg (fun he => hne he.symm)]
  | cons p rest ih =>
      obtain ⟨k, v⟩ := p
      rw [List.cons_append]
      show (if k = h' then some v else _) = (if k = h' then some v else _)
      by_cases hk' : k = h'
      · rw [if_pos hk', if_pos hk']
      · rw [if_neg hk', if_neg hk']
        exact ih

theorem sread_salloc_ne (σ : Store) {h' : Nat} (hne : h' ≠ σ.next) :
    sread (salloc σ).2 h' = sread σ h' :=
  hlookup_append_ne σ.heap hne

theorem swrite_next (σ : Store) (h : Nat) (c : counters_t) :
    (swrite σ h c).next = σ.next := rfl

theorem sfree_next (σ : Store) (h : Nat) : (sfree σ h).next = σ.next := rfl

theorem salloc_next (σ : Store) : (salloc σ).2.next = σ.next + 1 := rfl

theorem salloc_fst (σ : Store) : (salloc σ).1 = σ.next := rfl

/-- Frame property of `matchMerge` on the heap: it allocates and writes
only at or above the allocation watermark `n0`, so every object below the
watermark reads back unchanged; the resulting OR handle is above the
watermark. -/
theorem matchMergeS_frame (n0 : Nat) (σ0 σ : Store) (andH orH : Option Nat)
    (hnext : n0 ≤ σ.next)
    (hlow : ∀ h, h < n0 → sread σ h = sread σ0 h)
    (ha : ∀ a, andH = some a → n0 ≤ a)
    (ho : ∀ o, orH = some o → n0 ≤ o) :
    n0 ≤ (matchMergeS andH orH σ).2.next ∧
    (∀ h, h < n0 → sread (matchMergeS andH orH σ).2 h = sread σ0 h) ∧
    (∀ o', (matchMergeS andH orH σ).1 = some o' → n0 ≤ o') := by
  cases andH with
  | none => exact ⟨hnext, hlow, ho⟩
  | some a =>
      have hna := ha a rfl
      cases orH with
      | none =>
          refine ⟨?_, ?_, ?_⟩
          · show n0 ≤ σ.next + 1
            omega
          · intro h hh
            show sread (sfree (swrite (salloc σ).2 σ.next _) a) h = sread σ0 h
            rw [sread_sfree_ne _ _ (by omega : h ≠ a),
              sread_swrite_ne _ _ _ (by omega : h ≠ σ.next),
              sread_salloc_ne σ (by omega : h ≠ σ.next)]
            exact hlow h hh
          · intro o' ho'
            have : some σ.next = some o' := ho'
            injection this with he
            omega
      | some o =>
          have hno := ho o rfl
          refine ⟨hnext, ?_, ?_⟩
          · intro h hh
            show sread (sfree (swrite σ o _) a) h = sread σ0 h
            rw [sread_sfree_ne _ _ (by omega : h ≠ a),
              sread_swrite_ne _ _ _ (by omega : h ≠ o)]
            exact hlow h hh
          · intro o' ho'
            have : some o = some o' := ho'
            injection this with he
            omega

/-- Frame property of one `queryEvaluate` token step on the heap: writes
and frees touch only accumulator handles, which live at or above the
allocation watermark. -/
theorem evalStepS_frame (idxS : index_s) (n0 : Nat) (σ0 : Store)
    (st : EvalStateS) (σ : Store) (w : String)
    (hnext : n0 ≤ σ.next)
    (hlow : ∀ h, h < n0 → sread σ h = sread σ0 h)
    (ha : ∀ a, st.andH = some a → n0 ≤ a)
    (ho : ∀ o, st.orH = some o → n0 ≤ o) :
    n0 ≤ (evalStepS idxS st σ w).2.next ∧
    (∀ h, h < n0 → sread (evalStepS idxS st σ w).2 h = sread σ0 h) ∧
    (∀ a, (evalStepS idxS st σ w).1.andH = some a → n0 ≤ a) ∧
    (∀ o, (evalStepS idxS st σ w).1.orH = some o → n0 ≤ o) := by
  unfold evalStepS
  by_cases hor : w = "or"
  · rw [if_pos hor]
    obtain ⟨m1, m2, m3⟩ := matchMergeS_frame n0 σ0 σ st.andH st.orH hnext hlow ha ho
    rcases hmm : matchMergeS st.andH st.orH σ with ⟨o, σ1⟩
    rw [hmm] at m1 m2 m3
    dsimp only at m1 m2 m3 ⊢
    refine ⟨m1, m2, ?_, m3⟩
    intro a h
    cases h
  · rw [if_neg hor]
    by_cases hinv : st.invalid = true
    · rw [if_pos hinv]
      exact ⟨hnext, hlow, ha, ho⟩
    · rw [if_neg hinv]
      by_cases hand : w = "and"
      · rw [if_pos hand]
        exact ⟨hnext, hlow, ha, ho⟩
      · rw [if_neg hand]
        cases hfind : sfind idxS w with
        | none =>
            cases hA : st.andH with
            | some a =>
                have hna := ha a hA
                dsimp only
                refine ⟨hnext, ?_, ?_, ho⟩
                · intro h hh
                  rw [sread_sfree_ne _ _ (by omega : h ≠ a)]
                  exact hlow h hh
                · intro a' ha'
                  cases ha'
            | none =>
                dsimp only
                refine ⟨hnext, hlow, ?_, ho⟩
                intro a' h
                cases h
        | some wh =>
            cases hA : st.andH with
            | none =>
                dsimp only [salloc]
                refine ⟨?_, ?_, ?_, ho⟩
                · show n0 ≤ σ.next + 1
                  omega
                · intro h hh
                  rw [show (⟨σ.heap ++ [(σ.next, [])], σ.next + 1⟩ : Store) =
                    (salloc σ).2 from rfl]
                  rw [sread_swrite_ne _ _ _ (by omega : h ≠ σ.next),
                    sread_salloc_ne σ (by omega : h ≠ σ.next)]
                  exact hlow h hh
                · intro a' ha'
                  have : some σ.next = some a' := ha'
                  injection this with he
                  omega
            | some a =>
                have hna := ha a hA
                dsimp only
                refine ⟨hnext, ?_, ?_, ho⟩
                · intro h hh
                  rw [sread_swrite_ne _ _ _ (by omega : h ≠ a)]
                  exact hlow h hh
                · intro a' ha'
                  have : some a = some a' := ha'
                  injection this with he
                  omega

theorem evalFoldS_frame (idxS : index_s) (n0 : Nat) (σ0 : Store) :
    ∀ (ws : List String) (st : EvalStateS) (σ : Store),
    n0 ≤ σ.next →
    (∀ h, h < n0 → sread σ h = sread σ0 h) →
    (∀ a, st.andH = some a → n0 ≤ a) →
    (∀ o, st.orH = some o → n0 ≤ o) →
    n0 ≤ (ws.foldl (fun p w => evalStepS idxS p.1 p.2 w) (st, σ)).2.next ∧
    (∀ h, h < n0 →
      sread (ws.foldl (fun p w => evalStepS idxS p.1 p.2 w) (st, σ)).2 h = sread σ0 h) ∧
    (∀ a, (ws.foldl (fun p w => evalStepS idxS p.1 p.2 w) (st, σ)).1.andH = some a → n0 ≤ a) ∧
    (∀ o, (ws.foldl (fun p w => evalStepS idxS p.1 p.2 w) (st, σ)).1.orH = some o → n0 ≤ o) := by
  intro ws
  induction ws with
  | nil => intro st σ h1 h2 h3 h4; exact ⟨h1, h2, h3, h4⟩
  | cons w ws' ih =>
      intro st σ h1 h2 h3 h4
      rw [List.foldl_cons]
      obtain ⟨g1, g2, g3, g4⟩ := evalStepS_frame idxS n0 σ0 st σ w h1 h2 h3 h4
      exact ih (evalStepS idxS st σ w).1 (evalStepS idxS st σ w).2 g1 g2 g3 g4

/-- C9: query evaluation never mutates the stored index.  In the heap
model, for every query over an index whose counters objects were all
allocated before evaluation begins, every word's stored counters object
reads back unchanged after `queryEvaluate` completes: the AND accumulator
is seeded with a freshly allocated copy and every min-merge/sum-merge
write targets only the freshly allocated accumulators. -/
theorem eval_frame_preserves_index (ws : List String) (idxS : index_s)
    (σ : Store) (hidx : ∀ p ∈ idxS, p.2 < σ.next) :
    ∀ p ∈ idxS, sread (queryEvaluateS ws idxS σ).2 p.2 = sread σ p.2 := by
  intro p hp
  have hstart : ∀ h : Nat, h < σ.next → sread σ h = sread σ h := fun _ _ => rfl
  obtain ⟨f1, f2, f3, f4⟩ := evalFoldS_frame idxS σ.next σ ws ⟨none, none, false⟩ σ
    (le_refl _) hstart (by intro a h; cases h) (by intro o h; cases h)
  unfold queryEvaluateS
  rcases hF : ws.foldl (fun p w => evalStepS idxS p.1 p.2 w) (⟨none, none, false⟩, σ)
    with ⟨stF, σF⟩
  rw [hF] at f1 f2 f3 f4
  dsimp only
  obtain ⟨m1, m2, m3⟩ := matchMergeS_frame σ.next σ σF stF.andH stF.orH f1 f2 f3 f4
  exact m2 p.2 (hidx p hp)

/-- Witness for C9 at a concrete heap, index and query. -/
theorem eval_frame_preserves_index_witness :
    sread (queryEvaluateS ["dog", "and", "cat"] [("dog", 0), ("cat", 1)]
        ⟨[(0, [(1, 2)]), (1, [(1, 3)])], 2⟩).2 0 =
      sread ⟨[(0, [(1, 2)]), (1, [(1, 3)])], 2⟩ 0 :=
  eval_frame_preserves_index ["dog", "and", "cat"] [("dog", 0), ("cat", 1)]
    ⟨[(0, [(1, 2)]), (1, [(1, 3)])], 2⟩
    (by decide) ("dog", 0) (by decide)

end TSE
